import Mathlib

/- Formal verification of the structlib core against its specification.

   Embedded source files:
   - src/structlib/transform.py : linear / affine transform algebra
   - src/structlib/cell.py      : unit-cell <-> orthogonalization conversion
   - src/structlib/frame.py     : the AtomFrame columnar atom collection

   Python floats are modelled as real numbers where transcendental functions
   occur (transforms, cells) and as rationals in the purely algebraic frame
   algorithms, so concrete instances can be evaluated by the kernel.  A raised
   Python exception is modelled as Option.none or Except.error. -/

open Real

namespace Structlib

noncomputable section RealModel

/-- Real 3-vector (structlib.vec.Vec3, a 3-component float array). -/
structure Vec3 where
  x : ℝ
  y : ℝ
  z : ℝ

/-- Row-major 3 by 3 real matrix: the inner array of a LinearTransform. -/
structure Mat3 where
  m00 : ℝ
  m01 : ℝ
  m02 : ℝ
  m10 : ℝ
  m11 : ℝ
  m12 : ℝ
  m20 : ℝ
  m21 : ℝ
  m22 : ℝ

/-- Row-major 4 by 4 real matrix: the inner array of an AffineTransform. -/
structure Mat4 where
  a00 : ℝ
  a01 : ℝ
  a02 : ℝ
  a03 : ℝ
  a10 : ℝ
  a11 : ℝ
  a12 : ℝ
  a13 : ℝ
  a20 : ℝ
  a21 : ℝ
  a22 : ℝ
  a23 : ℝ
  a30 : ℝ
  a31 : ℝ
  a32 : ℝ
  a33 : ℝ

/-- Identity 3 by 3 matrix (numpy.eye(3), the default LinearTransform). -/
def Mat3.id : Mat3 := ⟨1, 0, 0, 0, 1, 0, 0, 0, 1⟩

/-- Matrix product of two 3 by 3 matrices (numpy matmul). -/
def mat3Mul (m n : Mat3) : Mat3 :=
  ⟨m.m00 * n.m00 + m.m01 * n.m10 + m.m02 * n.m20,
   m.m00 * n.m01 + m.m01 * n.m11 + m.m02 * n.m21,
   m.m00 * n.m02 + m.m01 * n.m12 + m.m02 * n.m22,
   m.m10 * n.m00 + m.m11 * n.m10 + m.m12 * n.m20,
   m.m10 * n.m01 + m.m11 * n.m11 + m.m12 * n.m21,
   m.m10 * n.m02 + m.m11 * n.m12 + m.m12 * n.m22,
   m.m20 * n.m00 + m.m21 * n.m10 + m.m22 * n.m20,
   m.m20 * n.m01 + m.m21 * n.m11 + m.m22 * n.m21,
   m.m20 * n.m02 + m.m21 * n.m12 + m.m22 * n.m22⟩

/-- Matrix product of two 4 by 4 matrices (numpy matmul). -/
def mat4Mul (m n : Mat4) : Mat4 :=
  ⟨m.a00 * n.a00 + m.a01 * n.a10 + m.a02 * n.a20 + m.a03 * n.a30,
   m.a00 * n.a01 + m.a01 * n.a11 + m.a02 * n.a21 + m.a03 * n.a31,
   m.a00 * n.a02 + m.a01 * n.a12 + m.a02 * n.a22 + m.a03 * n.a32,
   m.a00 * n.a03 + m.a01 * n.a13 + m.a02 * n.a23 + m.a03 * n.a33,
   m.a10 * n.a00 + m.a11 * n.a10 + m.a12 * n.a20 + m.a13 * n.a30,
   m.a10 * n.a01 + m.a11 * n.a11 + m.a12 * n.a21 + m.a13 * n.a31,
   m.a10 * n.a02 + m.a11 * n.a12 + m.a12 * n.a22 + m.a13 * n.a32,
   m.a10 * n.a03 + m.a11 * n.a13 + m.a12 * n.a23 + m.a13 * n.a33,
   m.a20 * n.a00 + m.a21 * n.a10 + m.a22 * n.a20 + m.a23 * n.a30,
   m.a20 * n.a01 + m.a21 * n.a11 + m.a22 * n.a21 + m.a23 * n.a31,
   m.a20 * n.a02 + m.a21 * n.a12 + m.a22 * n.a22 + m.a23 * n.a32,
   m.a20 * n.a03 + m.a21 * n.a13 + m.a22 * n.a23 + m.a23 * n.a33,
   m.a30 * n.a00 + m.a31 * n.a10 + m.a32 * n.a20 + m.a33 * n.a30,
   m.a30 * n.a01 + m.a31 * n.a11 + m.a32 * n.a21 + m.a33 * n.a31,
   m.a30 * n.a02 + m.a31 * n.a12 + m.a32 * n.a22 + m.a33 * n.a32,
   m.a30 * n.a03 + m.a31 * n.a13 + m.a32 * n.a23 + m.a33 * n.a33⟩

/-- AffineTransform.from_linear: embed a 3 by 3 linear block in a 4 by 4
homogeneous matrix with zero translation (numpy.block of the linear part,
a zero column, a zero row and a trailing 1). -/
def from_linear (m : Mat3) : Mat4 :=
  ⟨m.m00, m.m01, m.m02, 0,
   m.m10, m.m11, m.m12, 0,
   m.m20, m.m21, m.m22, 0,
   0, 0, 0, 1⟩

/-- The two concrete transform kinds of structlib.transform: LinearTransform
wraps a 3 by 3 matrix, AffineTransform a 4 by 4 homogeneous matrix. -/
inductive Transform where
  | linear (m : Mat3)
  | affine (m : Mat4)

/-- Transform.transform on a single 3-vector.  A linear transform multiplies
by its matrix; an affine transform appends a homogeneous 1, multiplies by the
4 by 4 matrix and keeps the first three components (transform.py lines
212-219 and 406-415). -/
def Transform.applyVec : Transform → Vec3 → Vec3
  | .linear m, p =>
      ⟨m.m00 * p.x + m.m01 * p.y + m.m02 * p.z,
       m.m10 * p.x + m.m11 * p.y + m.m12 * p.z,
       m.m20 * p.x + m.m21 * p.y + m.m22 * p.z⟩
  | .affine m, p =>
      ⟨m.a00 * p.x + m.a01 * p.y + m.a02 * p.z + m.a03,
       m.a10 * p.x + m.a11 * p.y + m.a12 * p.z + m.a13,
       m.a20 * p.x + m.a21 * p.y + m.a22 * p.z + m.a23⟩

/-- compose(self, other): apply self first, then other.  LinearTransform
returns other.inner matmul self.inner, keeping the linear kind when both are
linear; any affine operand promotes the linear one through from_linear and
yields other.inner matmul self.inner on 4 by 4 matrices (transform.py lines
231-239 and 384-392). -/
def Transform.compose : Transform → Transform → Transform
  | .linear a, .linear b => .linear (mat3Mul b a)
  | .linear a, .affine b => .affine (mat4Mul b (from_linear a))
  | .affine a, .linear b => .affine (mat4Mul (from_linear b) a)
  | .affine a, .affine b => .affine (mat4Mul b a)

/-- Kind test: is this a LinearTransform? -/
def Transform.isLinear : Transform → Bool
  | .linear _ => true
  | .affine _ => false

/-- Kind test: is this a (proper) AffineTransform? -/
def Transform.isAffine : Transform → Bool
  | .linear _ => false
  | .affine _ => true

/-- AffineTransform._translation returns the last column of the linear rows;
LinearTransform._translation raises NotImplementedError, modelled as none. -/
def Transform.translationVec : Transform → Option Vec3
  | .linear _ => none
  | .affine m => some ⟨m.a03, m.a13, m.a23⟩

/-- Promotion helper used by compose: a linear operand is first embedded as
an affine transform with zero translation; an affine operand is unchanged. -/
def embedIfLinear : Transform → Transform
  | .linear m => .affine (from_linear m)
  | t => t

/-- Data-model invariant of an AffineTransform: its 4 by 4 matrix is
homogeneous, i.e. the bottom row is (0, 0, 0, 1).  Every transform built by
the transform.py constructors (identity, translate, scale, rotate, mirror,
from_linear, compose) satisfies it. -/
def Transform.wellFormed : Transform → Prop
  | .linear _ => True
  | .affine m => m.a30 = 0 ∧ m.a31 = 0 ∧ m.a32 = 0 ∧ m.a33 = 1

/-- Default absolute tolerance of numpy.isclose / numpy.allclose. -/
def npAtol : ℝ := 1e-8

/-- Default relative tolerance of numpy.isclose / numpy.allclose. -/
def npRtol : ℝ := 1e-5

/-- numpy.isclose(x, y) with default tolerances:
abs (x - y) is at most atol + rtol * abs y. -/
def isclose (x y : ℝ) : Prop := |x - y| ≤ npAtol + npRtol * |y|

instance isclose.instDecidable (x y : ℝ) : Decidable (isclose x y) := by
  unfold isclose
  infer_instance

/-- cell.py _validate_cell_size: raises (none) when any component of the cell
size is numpy-close to zero, otherwise returns the size unchanged. -/
def validate_cell_size (cellSize : Vec3) : Option Vec3 :=
  if isclose cellSize.x 0 ∨ isclose cellSize.y 0 ∨ isclose cellSize.z 0 then none
  else some cellSize

/-- cell.py _validate_cell_angle: a missing angle defaults to (pi/2, pi/2,
pi/2); otherwise raises (none) when any angle is negative, any angle exceeds
pi, or the sum of the angles exceeds 2 pi. -/
def validate_cell_angle (cellAngle : Option Vec3) : Option Vec3 :=
  match cellAngle with
  | none => some ⟨π / 2, π / 2, π / 2⟩
  | some a =>
      if a.x < 0 ∨ a.y < 0 ∨ a.z < 0 ∨ a.x > π ∨ a.y > π ∨ a.z > π ∨
          a.x + a.y + a.z > 2 * π then none
      else some a

/-- LinearTransform().scale(a, b, c): the diagonal matrix times the identity
(transform.py lines 368-382 applied to the identity transform). -/
def scaleMat (a b c : ℝ) : Mat3 := mat3Mul ⟨a, 0, 0, 0, b, 0, 0, 0, c⟩ Mat3.id

/-- Body of cell_to_ortho after validation, on validated angles (alpha, beta,
gamma) and sizes (a, b, c).  If all angles are numpy-close to pi/2 the result
is the pure scale transform.  Otherwise the triclinic matrix is built from
the derived angle alphastar = arccos((cos beta * cos gamma - cos alpha) /
(sin beta * sin gamma)); numpy.arccos yields NaN - and the source assertion
fails, modelled as none - exactly when the denominator is zero or the
quotient lies outside [-1, 1]. -/
def cell_to_ortho_body (angle : Vec3) (a b c : ℝ) : Option Mat3 :=
  if isclose angle.x (π / 2) ∧ isclose angle.y (π / 2) ∧ isclose angle.z (π / 2) then
    some (scaleMat a b c)
  else
    let num := Real.cos angle.y * Real.cos angle.z - Real.cos angle.x
    let den := Real.sin angle.y * Real.sin angle.z
    if den = 0 ∨ |num| > |den| then none
    else
      let alphastar := Real.arccos (num / den)
      some ⟨a, b * Real.cos angle.z, c * Real.cos angle.y,
            0, b * Real.sin angle.z, -(c * Real.sin angle.y * Real.cos alphastar),
            0, 0, c * Real.sin angle.y * Real.sin alphastar⟩

/-- cell.py cell_to_ortho: validate the (optional) cell size and the angles,
default a missing size to (1, 1, 1), then build the orthogonalization
transform. -/
def cell_to_ortho (cellAngle : Vec3) (cellSize : Option Vec3) : Option Mat3 :=
  match cellSize with
  | some s =>
      match validate_cell_size s, validate_cell_angle (some cellAngle) with
      | some s2, some ang => cell_to_ortho_body ang s2.x s2.y s2.z
      | _, _ => none
  | none =>
      match validate_cell_angle (some cellAngle) with
      | some ang => cell_to_ortho_body ang 1 1 1
      | none => none

/-- Euclidean norm of column 0 of a 3 by 3 matrix (numpy.linalg.norm along
axis -2). -/
def colNorm0 (m : Mat3) : ℝ := Real.sqrt (m.m00 ^ 2 + m.m10 ^ 2 + m.m20 ^ 2)

/-- Euclidean norm of column 1 of a 3 by 3 matrix. -/
def colNorm1 (m : Mat3) : ℝ := Real.sqrt (m.m01 ^ 2 + m.m11 ^ 2 + m.m21 ^ 2)

/-- Euclidean norm of column 2 of a 3 by 3 matrix. -/
def colNorm2 (m : Mat3) : ℝ := Real.sqrt (m.m02 ^ 2 + m.m12 ^ 2 + m.m22 ^ 2)

/-- cell.py ortho_to_cell: cell sizes are the column norms of the linear
block; the columns are normalized by those sizes and the angles are arccos
of the pairwise dot products of the normalized columns (columns 1 and 2 give
alpha, 2 and 0 give beta, 0 and 1 give gamma); both results are re-validated
through the same range checks. -/
def ortho_to_cell (ortho : Mat3) : Option (Vec3 × Vec3) :=
  match validate_cell_size ⟨colNorm0 ortho, colNorm1 ortho, colNorm2 ortho⟩ with
  | none => none
  | some size =>
      match validate_cell_angle (some
          ⟨Real.arccos (ortho.m01 / size.y * (ortho.m02 / size.z) +
              ortho.m11 / size.y * (ortho.m12 / size.z) +
              ortho.m21 / size.y * (ortho.m22 / size.z)),
            Real.arccos (ortho.m02 / size.z * (ortho.m00 / size.x) +
              ortho.m12 / size.z * (ortho.m10 / size.x) +
              ortho.m22 / size.z * (ortho.m20 / size.x)),
            Real.arccos (ortho.m00 / size.x * (ortho.m01 / size.y) +
              ortho.m10 / size.x * (ortho.m11 / size.y) +
              ortho.m20 / size.x * (ortho.m21 / size.y))⟩) with
      | none => none
      | some angle => some (angle, size)

/-- Keep the elements of a list whose position is marked true in a boolean
mask (polars DataFrame.filter with a boolean series). -/
def filterMask {β : Type} (l : List β) (keep : List Bool) : List β :=
  ((l.zip keep).filter fun p => p.2).map Prod.fst

/-- Frame fragment relevant to apply_wobble / apply_occupancy: coordinates
plus the two optional columns the two methods read. -/
structure WFrame where
  coords : List (ℝ × ℝ × ℝ)
  wobble : Option (List ℝ)
  fracOccupancy : Option (List ℝ)

/-- frame.py apply_wobble: when the wobble column is absent, return self
unchanged; otherwise displace each atom by its per-axis standard deviation
sqrt(wobble / 3) times a standard-normal draw.  The random generator is
modelled as an abstract per-row draw function. -/
def apply_wobble (draws : ℕ → ℝ × ℝ × ℝ) (f : WFrame) : WFrame :=
  match f.wobble with
  | none => f
  | some w =>
      let stddev := w.map fun wi => Real.sqrt (wi / 3)
      let displaced :=
        (f.coords.zip (stddev.zip ((List.range f.coords.length).map draws))).map
          fun q => (q.1.1 + q.2.1 * q.2.2.1,
                    q.1.2.1 + q.2.1 * q.2.2.2.1,
                    q.1.2.2 + q.2.1 * q.2.2.2.2)
      { f with coords := displaced }

/-- frame.py apply_occupancy: when the frac_occupancy column is absent,
return self unchanged; otherwise draw one Bernoulli trial per atom with its
fractional occupancy as success probability and filter the whole frame by
the draws.  The random generator is modelled as an abstract draw function
from row index and probability to the trial outcome. -/
def apply_occupancy (draws : ℕ → ℝ → Bool) (f : WFrame) : WFrame :=
  match f.fracOccupancy with
  | none => f
  | some frac =>
      let keep := (List.range f.coords.length).map fun i => draws i (frac.getD i 0)
      { coords := filterMask f.coords keep,
        wobble := f.wobble.map fun w => filterMask w keep,
        fracOccupancy := some (filterMask frac keep) }

end RealModel

/- Rational model of the purely algebraic AtomFrame algorithms.  Coordinates
   and float columns are exact rationals here, so concrete instances are
   decidable; none of the embedded algorithms below uses any operation
   outside field arithmetic and comparisons. -/

/-- Coordinate triple of an atom row. -/
abbrev Q3 : Type := ℚ × ℚ × ℚ

/-- Squared Euclidean distance between two coordinate triples. -/
def sqDist (p q : Q3) : ℚ :=
  (p.1 - q.1) ^ 2 + (p.2.1 - q.2.1) ^ 2 + (p.2.2 - q.2.2) ^ 2

/-- Whether two rows lie within Euclidean distance tol of each other.  Over
the rationals, dist le tol is equivalent to dist squared le tol squared for
a nonnegative tol, and a negative query radius admits no pairs at all. -/
def withinTol (coords : List Q3) (tol : ℚ) (i j : ℕ) : Bool :=
  decide (0 ≤ tol) &&
    decide (sqDist (coords.getD i (0, 0, 0)) (coords.getD j (0, 0, 0)) ≤ tol ^ 2)

/-- scipy.spatial.KDTree.query_pairs(tolerance, 2.): all unordered index
pairs (i, j) with i < j whose points lie within Euclidean distance tolerance
(frame.py line 364).  The python set is modelled as the lexicographically
ordered pair list. -/
def close_pairs (coords : List Q3) (tol : ℚ) : List (ℕ × ℕ) :=
  (List.range coords.length).flatMap fun i =>
    ((List.range coords.length).filter fun j => decide (i < j) && withinTol coords tol i j).map
      fun j => (i, j)

/-- One full pass of the deduplicate merge loop (frame.py lines 363-369):
for every close pair (i, j) whose current group labels differ, set both
labels to the minimum of the two current labels; the second component
reports whether any label changed during the pass. -/
def dedupPass : List (ℕ × ℕ) → List ℕ → List ℕ × Bool
  | [], idx => (idx, false)
  | (i, j) :: ps, idx =>
      if idx.getD i 0 = idx.getD j 0 then dedupPass ps idx
      else
        ((dedupPass ps ((idx.set i (min (idx.getD i 0) (idx.getD j 0))).set j
          (min (idx.getD i 0) (idx.getD j 0)))).1, true)

/-- The while-True fixed-point loop of deduplicate (frame.py lines 362-371):
repeat full passes until one changes nothing.  The loop is given explicit
fuel; dedupLoop_reaches_fixpoint below shows any fuel exceeding the sum of
the initial labels reaches the fixed point, so the fuel used by
dedup_labels is equivalent to the unbounded source loop. -/
def dedupLoop : ℕ → List (ℕ × ℕ) → List ℕ → List ℕ
  | 0, _, idx => idx
  | fuel + 1, pairs, idx =>
      if (dedupPass pairs idx).2 then dedupLoop fuel pairs (dedupPass pairs idx).1
      else (dedupPass pairs idx).1

/-- Group labels produced by deduplicate for the given coordinates: start
from each row's own index (numpy.arange) and merge to a fixed point. -/
def dedup_labels (coords : List Q3) (tol : ℚ) : List ℕ :=
  dedupLoop ((List.range coords.length).sum + 1) (close_pairs coords tol)
    (List.range coords.length)

/-- Two rows are directly mergeable: some close pair joins them. -/
def closeStep (coords : List Q3) (tol : ℚ) (i j : ℕ) : Prop :=
  (i, j) ∈ close_pairs coords tol ∨ (j, i) ∈ close_pairs coords tol

/-- polars DataFrame.unique(subset=keys) with the default keep="first" and
maintained order: keep the first row of each key in original order, drop
the rest.  The accumulator holds the keys already seen. -/
def uniqueKeepFirstAux {κ β : Type} [DecidableEq κ] (seen : List κ) :
    List (κ × β) → List (κ × β)
  | [] => []
  | (k, b) :: rest =>
      if k ∈ seen then uniqueKeepFirstAux seen rest
      else (k, b) :: uniqueKeepFirstAux (k :: seen) rest

/-- polars DataFrame.unique(subset=keys), keep-first form used on the rows
tagged with their dedup key. -/
def uniqueKeepFirst {κ β : Type} [DecidableEq κ] (l : List (κ × β)) : List (κ × β) :=
  uniqueKeepFirstAux [] l

/-- Row type for deduplicate with the default columns (x, y, z, symbol):
spatial coordinates plus the symbol attribute column. -/
abbrev DedupRow : Type := Q3 × String

/-- Rows tagged with their final dedup key: the _unique_pts group label from
the fixed-point merge plus the remaining attribute column (symbol). -/
def keyedRows (tol : ℚ) (rows : List DedupRow) : List ((ℕ × String) × DedupRow) :=
  ((dedup_labels (rows.map Prod.fst) tol).zip rows).map fun lr => ((lr.1, lr.2.2), lr.2)

/-- Key-tagged result of deduplicate: one row per (group label, symbol) key,
first occurrence kept in original order (frame.py lines 373-375). -/
def dedup_keyed (tol : ℚ) (rows : List DedupRow) : List ((ℕ × String) × DedupRow) :=
  uniqueKeepFirst (keyedRows tol rows)

/-- frame.py deduplicate with the default columns: tag rows with the
_unique_pts labels, drop duplicate keys keeping first occurrences, then drop
the label column again. -/
def deduplicate (tol : ℚ) (rows : List DedupRow) : List DedupRow :=
  (dedup_keyed tol rows).map Prod.snd

/-- Bytewise lexicographic comparison of character lists, the order polars
uses on Utf8 columns. -/
def charListLe : List Char → List Char → Bool
  | [], _ => true
  | _ :: _, [] => false
  | a :: as, b :: bs =>
      if a.toNat < b.toNat then true
      else if b.toNat < a.toNat then false
      else charListLe as bs

/-- Lexicographic order on strings (polars Utf8 ascending sort). -/
def strLe (a b : String) : Bool := charListLe a.data b.data

/-- Lexicographic order on (elem, symbol) pairs used by polars
sort([elem, symbol]): ascending by atomic number, ties broken by the
case-sensitive symbol string. -/
def pairLe (a b : ℤ × String) : Bool :=
  decide (a.1 < b.1) || (decide (a.1 = b.1) && strLe a.2 b.2)

/-- Insert an element into a sorted list, keeping it sorted. -/
def insertSorted {α : Type} (le : α → α → Bool) (a : α) : List α → List α
  | [] => [a]
  | b :: bs => if le a b then a :: b :: bs else b :: insertSorted le a bs

/-- Insertion sort by the given comparison. -/
def insertionSort {α : Type} (le : α → α → Bool) (l : List α) : List α :=
  l.foldr (insertSorted le) []

/-- Worker for duplicate removal: drop elements already seen. -/
def dedupFirstAux {α : Type} [DecidableEq α] (seen : List α) : List α → List α
  | [] => []
  | a :: as =>
      if a ∈ seen then dedupFirstAux seen as
      else a :: dedupFirstAux (a :: seen) as

/-- Remove duplicates from a list, keeping first occurrences (polars
DataFrame.unique on the (elem, symbol) subset; the representative row choice
is irrelevant because only the key pair itself is consumed afterwards). -/
def dedupFirst {α : Type} [DecidableEq α] (l : List α) : List α :=
  dedupFirstAux [] l

/-- Position of the first occurrence of an element in a list (length when
absent). -/
def rankIn {α : Type} [DecidableEq α] (a : α) : List α → ℕ
  | [] => 0
  | b :: bs => if b = a then 0 else rankIn a bs + 1

/-- The distinct (elem, symbol) pairs of the frame sorted ascending
(frame.py line 237). -/
def unique_pairs (rows : List (ℤ × String)) : List (ℤ × String) :=
  insertionSort pairLe (dedupFirst rows)

/-- The assignment loop of with_type (frame.py lines 241-246): for the i-th
unique pair, give type i + 1 to every row matching that pair, leaving all
other rows at their current value. -/
def assignLoop (rows : List (ℤ × String)) :
    List (ℤ × String) → ℕ → List ℤ → List ℤ
  | [], _, ts => ts
  | p :: ps, i, ts =>
      assignLoop rows ps (i + 1)
        (List.zipWith (fun r t => if r = p then ((i : ℤ) + 1) else t) rows ts)

/-- Auto-assigned type column of with_type(): start from zeros and run the
assignment loop over the sorted distinct (elem, symbol) pairs. -/
def auto_assign_types (rows : List (ℤ × String)) : List ℤ :=
  assignLoop rows (unique_pairs rows) 0 (List.replicate rows.length 0)

/-- Frame fragment relevant to with_type: the (elem, symbol) columns plus
the optional type column. -/
structure TypedFrame where
  rows : List (ℤ × String)
  type : Option (List ℤ)

/-- frame.py with_type() called without an argument: when a type column
already exists, return self; otherwise auto-assign types. -/
def with_type (f : TypedFrame) : TypedFrame :=
  match f.type with
  | some _ => f
  | none => { f with type := some (auto_assign_types f.rows) }

/-- Number of true entries of a boolean selection mask. -/
def countTrue (mask : List Bool) : ℕ := (mask.filter id).length

/-- numpy masked assignment new_pts[selection] = pts on rows of coordinates:
rows marked true take the next replacement row in order, rows marked false
keep their value. -/
def substSeq : List Q3 → List Bool → List Q3 → List Q3
  | [], _, _ => []
  | _ :: cs, true :: ms, p :: ps => p :: substSeq cs ms ps
  | c :: cs, true :: ms, [] => c :: substSeq cs ms []
  | c :: cs, false :: ms, ps => c :: substSeq cs ms ps
  | c :: cs, [], ps => c :: substSeq cs [] ps

/-- numpy new_pts[selection] = pts with broadcasting: the replacement array
must hold exactly one row per selected row, or a single row broadcast to all
selected rows; any other shape raises a broadcast error (none). -/
def setMasked (coords : List Q3) (mask : List Bool) (pts : List Q3) : Option (List Q3) :=
  if pts.length = countTrue mask then some (substSeq coords mask pts)
  else if pts.length = 1 then
    some (substSeq coords mask (List.replicate (countTrue mask) (pts.getD 0 (0, 0, 0))))
  else none

/-- frame.py with_coords: replace the x, y, z columns by the given points.
With a selection, the current coordinates are copied, the selected rows are
overwritten by the given points (numpy masked assignment), and the result
must broadcast to one row per atom; the attribute columns are untouched. -/
def with_coords {α : Type} (rows : List (Q3 × α)) (pts : List Q3)
    (selection : Option (List Bool)) : Option (List (Q3 × α)) :=
  match selection with
  | some mask =>
      (setMasked (rows.map Prod.fst) mask pts).map fun newCoords =>
        newCoords.zip (rows.map Prod.snd)
  | none =>
      if pts.length = rows.length then some (pts.zip (rows.map Prod.snd))
      else if pts.length = 1 then
        some ((List.replicate rows.length (pts.getD 0 (0, 0, 0))).zip (rows.map Prod.snd))
      else none

/-- Columnar input to the AtomFrame constructor: each required column either
present (with its data) or absent. -/
structure RawFrame where
  x : Option (List ℚ)
  y : Option (List ℚ)
  z : Option (List ℚ)
  elem : Option (List ℤ)
  symbol : Option (List String)

/-- Modelled from the spec: the external element-lookup service function
elem_of(symbol) -> int (structlib.elem.get_elem, whose source is not under
src/); unknown symbols are validation errors, modelled as none.  Only a
finite fragment of the periodic table is materialized; the claims below use
it only through symbols this table covers. -/
def get_elem : String → Option ℤ
  | "H" => some 1
  | "Na" => some 11
  | "Ag" => some 47
  | "Ag+" => some 47
  | _ => none

/-- Modelled from the spec: the external element-lookup service function
symbol_of(elem) -> string (structlib.elem.get_sym); an out-of-range atomic
number is a validation error, modelled as none. -/
def get_sym : ℤ → Option String
  | 1 => some "H"
  | 11 => some "Na"
  | 47 => some "Ag"
  | _ => none

/-- Validated AtomFrame columns after construction. -/
structure AtomFrameData where
  x : List ℚ
  y : List ℚ
  z : List ℚ
  elem : List ℤ
  symbol : List String

/-- frame.py AtomFrame construction (new plus validate): raise when both
elem and symbol are missing; fill a missing one of the two from the other
through the element-lookup service (surfacing its failures); finally
validate that the required columns x, y, z (and the now-present elem and
symbol) all exist. -/
def mk_atom_frame (d : RawFrame) : Except String AtomFrameData :=
  match
    (match d.elem, d.symbol with
     | none, none => Except.error "AtomFrame missing columns elem and/or symbol."
     | some es, none =>
         match es.mapM get_sym with
         | some ss => Except.ok (es, ss)
         | none => Except.error "invalid atomic number"
     | none, some ss =>
         match ss.mapM get_elem with
         | some es => Except.ok (es, ss)
         | none => Except.error "invalid element symbol"
     | some es, some ss => Except.ok (es, ss)) with
  | Except.error e => Except.error e
  | Except.ok (es, ss) =>
      match d.x, d.y, d.z with
      | some xs, some ys, some zs => Except.ok ⟨xs, ys, zs, es, ss⟩
      | _, _, _ => Except.error "AtomFrame missing required column(s)"

/-- polars column dtypes occurring in an AtomFrame. -/
inductive DType where
  | f32
  | f64
  | i8
  | i64
  | utf8
deriving DecidableEq

/-- Column payload of a frame: float columns (exact rationals here), integer
columns or string columns. -/
inductive ColData where
  | floats (v : List ℚ)
  | ints (v : List ℤ)
  | strs (v : List String)
deriving DecidableEq

/-- A named, typed column. -/
structure EqCol where
  name : String
  dtype : DType
  data : ColData
deriving DecidableEq

/-- Frame model for the equality comparison: the ordered column list. -/
structure EqFrame where
  cols : List EqCol
deriving DecidableEq

/-- DataFrame.schema: column names with their dtypes, in order. -/
def schemaOf (f : EqFrame) : List (String × DType) :=
  f.cols.map fun c => (c.name, c.dtype)

/-- numpy.allclose on two float columns with default tolerances; numpy
raises (error) when the shapes cannot broadcast. -/
def series_allclose (a b : List ℚ) : Except String Bool :=
  if a.length = b.length then
    Except.ok ((a.zip b).all fun p =>
      decide (|p.1 - p.2| ≤ (1 : ℚ) / 100000000 + (1 : ℚ) / 100000 * |p.2|))
  else Except.error "operands could not be broadcast together"

/-- Python truthiness of a polars elementwise boolean Series, as used by the
if-not-eq test of frame.py line 387: polars raises, because the truth value
of a Series is ambiguous. -/
def series_truthy (_ : List Bool) : Except String Bool :=
  Except.error "the truth value of a Series is ambiguous"

/-- One column comparison of AtomFrame eq (frame.py lines 382-386): float
columns go through numpy.allclose and produce a plain bool; any other dtype
produces the elementwise boolean Series the code then passes to Python
truthiness. -/
def col_compare (a b : ColData) : Except String Bool :=
  match a, b with
  | .floats va, .floats vb => series_allclose va vb
  | .ints va, .ints vb => series_truthy (List.zipWith (fun x y => decide (x = y)) va vb)
  | .strs va, .strs vb => series_truthy (List.zipWith (fun x y => decide (x = y)) va vb)
  | _, _ => Except.error "dtype mismatch"

/-- Column loop of AtomFrame eq: compare column by column, returning False
on the first column whose comparison is falsy. -/
def frame_eq_aux : List (ColData × ColData) → Except String Bool
  | [] => Except.ok true
  | (a, b) :: rest =>
      match col_compare a b with
      | Except.error e => Except.error e
      | Except.ok c => if c then frame_eq_aux rest else Except.ok false

/-- frame.py AtomFrame eq: False when the schemas differ, otherwise compare
every column row-wise, float columns through numpy.allclose. -/
def frame_eq (f g : EqFrame) : Except String Bool :=
  if schemaOf f = schemaOf g then
    frame_eq_aux ((f.cols.map EqCol.data).zip (g.cols.map EqCol.data))
  else Except.ok false

/-- Whether an Except result is a success. -/
def exceptOk {ε α : Type} : Except ε α → Bool
  | Except.ok _ => true
  | Except.error _ => false

/-- Side condition for the construction characterization: when exactly one
of elem / symbol is present, every lookup needed to fill the other column
succeeds.  (A failed lookup is a validation error of the external service
that the constructor surfaces unchanged.) -/
def lookupsOk (d : RawFrame) : Bool :=
  match d.elem, d.symbol with
  | some es, none => (es.mapM get_sym).isSome
  | none, some ss => (ss.mapM get_elem).isSome
  | _, _ => true

/-- Well-formed five-column frame used by the equality counterexample. -/
def eqExF1 : EqFrame :=
  ⟨[⟨"x", .f64, .floats [0]⟩, ⟨"y", .f64, .floats [0]⟩, ⟨"z", .f64, .floats [0]⟩,
    ⟨"elem", .i8, .ints [1]⟩, ⟨"symbol", .utf8, .strs ["H"]⟩]⟩

/-- Frame identical to eqExF1 except for the symbol column. -/
def eqExF2 : EqFrame :=
  ⟨[⟨"x", .f64, .floats [0]⟩, ⟨"y", .f64, .floats [0]⟩, ⟨"z", .f64, .floats [0]⟩,
    ⟨"elem", .i8, .ints [1]⟩, ⟨"symbol", .utf8, .strs ["He"]⟩]⟩

/-- Three collinear atoms: a chain where neighbors are within tolerance 1
but the endpoints are not. -/
def dedupEx3 : List Q3 := [(0, 0, 0), (1, 0, 0), (2, 0, 0)]

/-- Coordinates of the four-atom deduplicate example: one close pair and two
far-away atoms. -/
def dedupEx4C : List Q3 := [(0, 0, 0), (1, 0, 0), (10, 0, 0), (20, 0, 0)]

/-- Four atoms sharing a symbol, exactly one pair within tolerance 1. -/
def dedupEx4 : List DedupRow :=
  [((0, 0, 0), "C"), ((1, 0, 0), "C"), ((10, 0, 0), "C"), ((20, 0, 0), "C")]

noncomputable section WitnessInputs

/-- Concrete affine transform (translation by (10, 20, 30)) used to witness
the compose theorem. -/
def composeExA : Transform := .affine ⟨1, 0, 0, 10, 0, 1, 0, 20, 0, 0, 1, 30, 0, 0, 0, 1⟩

/-- Concrete linear transform (scale by (2, 3, 4)) used to witness the
compose theorem. -/
def composeExB : Transform := .linear ⟨2, 0, 0, 0, 3, 0, 0, 0, 4⟩

/-- Concrete point used to witness the compose theorem. -/
def composeExP : Vec3 := ⟨5, 6, 7⟩

end WitnessInputs

/-- C3: compose(A, B) applied to a point equals B applied to (A applied to
the point); two linear operands compose to a linear transform, any affine
operand makes the composite affine, and a linear operand is first embedded
as an affine transform whose translation is zero.  A is required to carry a
homogeneous matrix (bottom row 0, 0, 0, 1), the data-model invariant every
transform.py constructor maintains. -/
theorem compose_applies_A_then_B (A B : Transform) (p : Vec3) (hA : A.wellFormed) :
    (A.compose B).applyVec p = B.applyVec (A.applyVec p) ∧
    (A.compose B).isLinear = (A.isLinear && B.isLinear) ∧
    (A.compose B).isAffine = (A.isAffine || B.isAffine) ∧
    ((A.isAffine || B.isAffine) = true →
      A.compose B = (embedIfLinear A).compose (embedIfLinear B)) ∧
    (A.isLinear = true → (embedIfLinear A).translationVec = some ⟨0, 0, 0⟩) := by
  cases A with
  | linear m =>
      cases B with
      | linear n =>
          refine ⟨?_, rfl, rfl, ?_, fun _ => rfl⟩
          · simp only [Transform.compose, Transform.applyVec, mat3Mul, Vec3.mk.injEq]
            refine ⟨by ring, by ring, by ring⟩
          · intro h
            simp [Transform.isAffine] at h
      | affine n =>
          refine ⟨?_, rfl, rfl, fun _ => rfl, fun _ => rfl⟩
          simp only [Transform.compose, Transform.applyVec, mat4Mul, from_linear,
            Vec3.mk.injEq]
          refine ⟨by ring, by ring, by ring⟩
  | affine m =>
      obtain ⟨h0, h1, h2, h3⟩ := hA
      cases B with
      | linear n =>
          refine ⟨?_, rfl, rfl, fun _ => rfl, ?_⟩
          · simp only [Transform.compose, Transform.applyVec, mat4Mul, from_linear,
              Vec3.mk.injEq]
            refine ⟨by ring, by ring, by ring⟩
          · intro h
            simp [Transform.isLinear] at h
      | affine n =>
          refine ⟨?_, rfl, rfl, fun _ => rfl, ?_⟩
          · simp only [Transform.compose, Transform.applyVec, mat4Mul, Vec3.mk.injEq]
            rw [h0, h1, h2, h3]
            refine ⟨by ring, by ring, by ring⟩
          · intro h
            simp [Transform.isLinear] at h

/-- Witness for C3 at a concrete affine translation, linear scale and
point. -/
theorem compose_applies_A_then_B_witness :
    composeExA.wellFormed ∧
    ((composeExA.compose composeExB).applyVec composeExP =
        composeExB.applyVec (composeExA.applyVec composeExP) ∧
      (composeExA.compose composeExB).isLinear =
        (composeExA.isLinear && composeExB.isLinear) ∧
      (composeExA.compose composeExB).isAffine =
        (composeExA.isAffine || composeExB.isAffine) ∧
      ((composeExA.isAffine || composeExB.isAffine) = true →
        composeExA.compose composeExB =
          (embedIfLinear composeExA).compose (embedIfLinear composeExB)) ∧
      (composeExA.isLinear = true →
        (embedIfLinear composeExA).translationVec = some ⟨0, 0, 0⟩)) :=
  ⟨⟨rfl, rfl, rfl, rfl⟩,
    compose_applies_A_then_B composeExA composeExB composeExP ⟨rfl, rfl, rfl, rfl⟩⟩

/-- C10: apply_wobble returns the receiver unchanged when the wobble column
is absent, and apply_occupancy returns the receiver unchanged when the
frac_occupancy column is absent, whatever the random draws are. -/
theorem apply_wobble_occupancy_absent (f : WFrame) (dW : ℕ → ℝ × ℝ × ℝ)
    (dO : ℕ → ℝ → Bool) :
    (f.wobble = none → apply_wobble dW f = f) ∧
    (f.fracOccupancy = none → apply_occupancy dO f = f) := by
  constructor
  · intro h
    unfold apply_wobble
    rw [h]
  · intro h
    unfold apply_occupancy
    rw [h]

/-- Witness for C10 on a one-atom frame lacking both optional columns. -/
theorem apply_wobble_occupancy_absent_witness :
    (WFrame.mk [((1 : ℝ), 2, 3)] none none).wobble = none ∧
    (WFrame.mk [((1 : ℝ), 2, 3)] none none).fracOccupancy = none ∧
    apply_wobble (fun _ => (0, 0, 0)) (WFrame.mk [((1 : ℝ), 2, 3)] none none) =
      WFrame.mk [((1 : ℝ), 2, 3)] none none ∧
    apply_occupancy (fun _ _ => true) (WFrame.mk [((1 : ℝ), 2, 3)] none none) =
      WFrame.mk [((1 : ℝ), 2, 3)] none none :=
  ⟨rfl, rfl,
    (apply_wobble_occupancy_absent _ _ (fun _ _ => true)).1 rfl,
    (apply_wobble_occupancy_absent _ (fun _ => (0, 0, 0)) _).2 rfl⟩

/-- Helper: numpy.allclose accepts the one-row zero column compared with
itself. -/
theorem series_allclose_zero : series_allclose [0] [0] = Except.ok true := by
  unfold series_allclose
  rw [if_pos rfl]
  congr 1
  simp only [List.zip, List.zipWithTR, List.zipWith, List.all_cons, List.all_nil,
    Bool.and_true, decide_eq_true_eq]
  norm_num

/-- C8 (code bug): AtomFrame eq feeds the elementwise boolean Series of a
non-float column comparison to Python truthiness (if not eq), which the
Series library rejects as ambiguous.  Hence even two well-formed frames of
equal schema are never compared row-wise: the comparison of two frames
differing only in their symbol column errors instead of returning False,
and even the comparison of a frame with itself errors instead of returning
True. -/
theorem frame_eq_truthiness_bug :
    schemaOf eqExF1 = schemaOf eqExF2 ∧
    frame_eq eqExF1 eqExF2 = Except.error "the truth value of a Series is ambiguous" ∧
    frame_eq eqExF1 eqExF1 = Except.error "the truth value of a Series is ambiguous" := by
  have hcol : col_compare (ColData.floats [0]) (ColData.floats [0]) = Except.ok true :=
    series_allclose_zero
  have hstep : ∀ rest, frame_eq_aux ((ColData.floats [0], ColData.floats [0]) :: rest) =
      frame_eq_aux rest := by
    intro rest
    simp only [frame_eq_aux, hcol, if_true]
  refine ⟨rfl, ?_, ?_⟩
  · show frame_eq_aux
        [(ColData.floats [0], ColData.floats [0]), (ColData.floats [0], ColData.floats [0]),
         (ColData.floats [0], ColData.floats [0]), (ColData.ints [1], ColData.ints [1]),
         (ColData.strs ["H"], ColData.strs ["He"])] =
      Except.error "the truth value of a Series is ambiguous"
    rw [hstep, hstep, hstep]
    rfl
  · show frame_eq_aux
        [(ColData.floats [0], ColData.floats [0]), (ColData.floats [0], ColData.floats [0]),
         (ColData.floats [0], ColData.floats [0]), (ColData.ints [1], ColData.ints [1]),
         (ColData.strs ["H"], ColData.strs ["H"])] =
      Except.error "the truth value of a Series is ambiguous"
    rw [hstep, hstep, hstep]
    rfl

/-- C9 counterexample: columnar input with the required column elem missing
(x, y, z, symbol present) is accepted - the constructor fills elem from
symbol through the element lookup - contrary to the claim that a missing
required column always fails construction. -/
theorem mk_atom_frame_missing_elem_succeeds :
    mk_atom_frame ⟨some [0], some [0], some [0], none, some ["H"]⟩ =
      Except.ok ⟨[0], [0], [0], [1], ["H"]⟩ := rfl

/-- C9 amended: provided the element lookups needed to fill a single
missing elem / symbol column succeed, construction succeeds exactly when x,
y and z are all present and at least one of elem and symbol is present; in
particular a missing x, y or z, or missing both elem and symbol, fails with
a validation error. -/
theorem mk_atom_frame_ok_iff (d : RawFrame) (h : lookupsOk d = true) :
    exceptOk (mk_atom_frame d) = true ↔
      (d.x.isSome = true ∧ d.y.isSome = true ∧ d.z.isSome = true ∧
        (d.elem.isSome = true ∨ d.symbol.isSome = true)) := by
  obtain ⟨x, y, z, elem, symbol⟩ := d
  cases elem with
  | none =>
      cases symbol with
      | none => simp [mk_atom_frame, exceptOk]
      | some ss =>
          have h2 : (ss.mapM get_elem).isSome = true := h
          obtain ⟨es, hes⟩ := Option.isSome_iff_exists.mp h2
          have hes2 : List.mapM.loop get_elem ss [] = some es := hes
          cases x <;> cases y <;> cases z <;>
            simp [mk_atom_frame, exceptOk, hes2]
  | some es =>
      cases symbol with
      | none =>
          have h2 : (es.mapM get_sym).isSome = true := h
          obtain ⟨ss, hss⟩ := Option.isSome_iff_exists.mp h2
          have hss2 : List.mapM.loop get_sym es [] = some ss := hss
          cases x <;> cases y <;> cases z <;>
            simp [mk_atom_frame, exceptOk, hss2]
      | some ss =>
          cases x <;> cases y <;> cases z <;> simp [mk_atom_frame, exceptOk]

/-- Witness for the amended C9 on input with all five columns present. -/
theorem mk_atom_frame_ok_iff_witness :
    lookupsOk ⟨some [0], some [0], some [0], some [1], some ["H"]⟩ = true ∧
    (exceptOk (mk_atom_frame ⟨some [0], some [0], some [0], some [1], some ["H"]⟩) = true ↔
      ((some [(0 : ℚ)]).isSome = true ∧ (some [(0 : ℚ)]).isSome = true ∧
        (some [(0 : ℚ)]).isSome = true ∧
        ((some [(1 : ℤ)]).isSome = true ∨ (some ["H"]).isSome = true))) :=
  ⟨rfl, mk_atom_frame_ok_iff ⟨some [0], some [0], some [0], some [1], some ["H"]⟩ rfl⟩

/-- Helper: masked substitution preserves the row count. -/
theorem substSeq_length : ∀ (c : List Q3) (m : List Bool) (p : List Q3),
    (substSeq c m p).length = c.length := by
  intro c
  induction c with
  | nil => intro m p; rfl
  | cons hd tl ih =>
      intro m p
      cases m with
      | nil => simp [substSeq, ih]
      | cons mb ms =>
          cases mb with
          | false => simp [substSeq, ih]
          | true =>
              cases p with
              | nil => simp [substSeq, ih]
              | cons q qs => simp [substSeq, ih]

/-- Helper: masked substitution leaves rows whose mask entry is false
untouched. -/
theorem substSeq_nth_of_false : ∀ (cs : List Q3) (m : List Bool) (p : List Q3) (k : ℕ),
    m[k]? = some false → (substSeq cs m p)[k]? = cs[k]? := by
  intro cs
  induction cs with
  | nil => intro m p k _; rfl
  | cons hd tl ih =>
      intro m p k h
      cases m with
      | nil => simp at h
      | cons mb ms =>
          cases k with
          | zero =>
              have hmb : mb = false := by simpa using h
              subst hmb
              simp [substSeq]
          | succ k2 =>
              have h2 : ms[k2]? = some false := by simpa using h
              cases mb with
              | false => simp [substSeq, ih _ _ _ h2]
              | true =>
                  cases p with
                  | nil => simp [substSeq, ih _ _ _ h2]
                  | cons q qs => simp [substSeq, ih _ _ _ h2]

/-- Helper: entry of a zipped list as a pair of entries. -/
theorem zip_nth {α β : Type} : ∀ (l : List α) (m : List β) (k : ℕ),
    (l.zip m)[k]? = (l[k]?).bind fun a => (m[k]?).map fun b => (a, b) := by
  intro l
  induction l with
  | nil => intro m k; simp
  | cons a as ih =>
      intro m k
      cases m with
      | nil => simp
      | cons b bs =>
          cases k with
          | zero => simp
          | succ k2 => simpa using ih bs k2

/-- C6 counterexample: a full (N, 3) replacement array together with a
selection that picks fewer than N rows does not broadcast: numpy raises and
with_coords produces no collection at all, contrary to the claim, which
quantifies over every (N, 3) array and every boolean selection. -/
theorem with_coords_full_array_selection_errors :
    with_coords [(((0 : ℚ), 0, 0), "A"), (((1 : ℚ), 1, 1), "B")]
      [((5 : ℚ), 5, 5), ((6 : ℚ), 6, 6)] (some [true, false]) = none := rfl

/-- C6 amended: with a boolean selection of the frame's row count and a
replacement array holding one row per selected row, with_coords succeeds,
every row whose selection entry is false keeps its exact coordinates and
attributes, and every row keeps its attribute value. -/
theorem with_coords_preserves_unselected (α : Type) (rows : List (Q3 × α))
    (pts : List Q3) (mask : List Bool)
    (hm : mask.length = rows.length) (hp : pts.length = countTrue mask) :
    ∃ r, with_coords rows pts (some mask) = some r ∧ r.length = rows.length ∧
      (∀ k : ℕ, mask[k]? = some false → r[k]? = rows[k]?) ∧
      (∀ k : ℕ, (r[k]?).map Prod.snd = (rows[k]?).map Prod.snd) := by
  have hset : setMasked (rows.map Prod.fst) mask pts =
      some (substSeq (rows.map Prod.fst) mask pts) := by
    unfold setMasked
    rw [if_pos hp]
  refine ⟨(substSeq (rows.map Prod.fst) mask pts).zip (rows.map Prod.snd), ?_, ?_, ?_, ?_⟩
  · simp only [with_coords]
    rw [hset]
    rfl
  · rw [List.length_zip, substSeq_length, List.length_map, List.length_map, min_self]
  · intro k hk
    rw [zip_nth, substSeq_nth_of_false _ _ _ _ hk, List.getElem?_map, List.getElem?_map]
    cases hr : rows[k]? <;> simp [hr]
  · intro k
    rcases Nat.lt_or_ge k rows.length with hlt | hge
    · have hrow : rows[k]? = some rows[k] := List.getElem?_eq_getElem hlt
      have hlen : k < (substSeq (rows.map Prod.fst) mask pts).length := by
        rw [substSeq_length, List.length_map]
        exact hlt
      have hc : (substSeq (rows.map Prod.fst) mask pts)[k]? =
          some (substSeq (rows.map Prod.fst) mask pts)[k] :=
        List.getElem?_eq_getElem hlen
      rw [zip_nth, hc, List.getElem?_map, hrow]
      simp
    · have h1 : rows[k]? = none := List.getElem?_eq_none hge
      have h2 : (substSeq (rows.map Prod.fst) mask pts)[k]? = none := by
        apply List.getElem?_eq_none
        rw [substSeq_length, List.length_map]
        exact hge
      rw [zip_nth, h1, h2]
      simp

/-- Witness for the amended C6: a two-row frame, a selection choosing only
the first row, and a one-row replacement array. -/
theorem with_coords_preserves_unselected_witness :
    ([true, false] : List Bool).length =
      ([(((0 : ℚ), 0, 0), "A"), (((1 : ℚ), 1, 1), "B")] : List (Q3 × String)).length ∧
    ([((9 : ℚ), 9, 9)] : List Q3).length = countTrue [true, false] ∧
    (∃ r, with_coords [(((0 : ℚ), 0, 0), "A"), (((1 : ℚ), 1, 1), "B")]
        [((9 : ℚ), 9, 9)] (some [true, false]) = some r ∧
      r.length = ([(((0 : ℚ), 0, 0), "A"), (((1 : ℚ), 1, 1), "B")] : List (Q3 × String)).length ∧
      (∀ k : ℕ, ([true, false] : List Bool)[k]? = some false →
        r[k]? = ([(((0 : ℚ), 0, 0), "A"), (((1 : ℚ), 1, 1), "B")] : List (Q3 × String))[k]?) ∧
      (∀ k : ℕ, (r[k]?).map Prod.snd =
        (([(((0 : ℚ), 0, 0), "A"), (((1 : ℚ), 1, 1), "B")] : List (Q3 × String))[k]?).map Prod.snd)) :=
  ⟨rfl, rfl,
    with_coords_preserves_unselected String
      [(((0 : ℚ), 0, 0), "A"), (((1 : ℚ), 1, 1), "B")] [((9 : ℚ), 9, 9)]
      [true, false] rfl rfl⟩

/-- Helper: the bytewise character-list order is total. -/
theorem charListLe_total : ∀ as bs, charListLe as bs = true ∨ charListLe bs as = true := by
  intro as
  induction as with
  | nil => intro bs; left; cases bs <;> rfl
  | cons a as2 ih =>
      intro bs
      cases bs with
      | nil => right; rfl
      | cons b bs2 =>
          rcases Nat.lt_trichotomy a.toNat b.toNat with h | h | h
          · left; simp [charListLe, h]
          · rcases ih bs2 with h2 | h2
            · left; simp [charListLe, h, h2]
            · right; simp [charListLe, h, h2]
          · right; simp [charListLe, h]

/-- Helper: the bytewise character-list order is transitive. -/
theorem charListLe_trans : ∀ as bs cs, charListLe as bs = true →
    charListLe bs cs = true → charListLe as cs = true := by
  intro as
  induction as with
  | nil => intro bs cs _ _; cases cs <;> rfl
  | cons a as2 ih =>
      intro bs cs h1 h2
      cases bs with
      | nil => simp [charListLe] at h1
      | cons b bs2 =>
          cases cs with
          | nil => simp [charListLe] at h2
          | cons c cs2 =>
              rcases Nat.lt_trichotomy a.toNat b.toNat with h | h | h
              · rcases Nat.lt_trichotomy b.toNat c.toNat with g | g | g
                · simp [charListLe, show a.toNat < c.toNat by omega]
                · simp [charListLe, show a.toNat < c.toNat by omega]
                · simp [charListLe, show ¬ b.toNat < c.toNat by omega, g] at h2
              · rcases Nat.lt_trichotomy b.toNat c.toNat with g | g | g
                · simp [charListLe, show a.toNat < c.toNat by omega]
                · simp only [charListLe, h, lt_self_iff_false, if_false] at h1
                  simp only [charListLe, g, lt_self_iff_false, if_false] at h2
                  simp only [charListLe, show a.toNat = c.toNat by omega,
                    lt_self_iff_false, if_false]
                  exact ih bs2 cs2 h1 h2
                · simp [charListLe, show ¬ b.toNat < c.toNat by omega, g] at h2
              · simp [charListLe, show ¬ a.toNat < b.toNat by omega, h] at h1

/-- Helper: the string order is total. -/
theorem strLe_total (a b : String) : strLe a b = true ∨ strLe b a = true :=
  charListLe_total a.data b.data

/-- Helper: the string order is transitive. -/
theorem strLe_trans (a b cc : String) : strLe a b = true → strLe b cc = true →
    strLe a cc = true :=
  charListLe_trans a.data b.data cc.data

/-- Helper: the (elem, symbol) order is total. -/
theorem pairLe_total (a b : ℤ × String) : pairLe a b = true ∨ pairLe b a = true := by
  simp only [pairLe, Bool.or_eq_true, Bool.and_eq_true, decide_eq_true_eq]
  rcases lt_trichotomy a.1 b.1 with h | h | h
  · exact Or.inl (Or.inl h)
  · rcases strLe_total a.2 b.2 with h2 | h2
    · exact Or.inl (Or.inr ⟨h, h2⟩)
    · exact Or.inr (Or.inr ⟨h.symm, h2⟩)
  · exact Or.inr (Or.inl h)

/-- Helper: the (elem, symbol) order is transitive. -/
theorem pairLe_trans (a b cc : ℤ × String) : pairLe a b = true → pairLe b cc = true →
    pairLe a cc = true := by
  simp only [pairLe, Bool.or_eq_true, Bool.and_eq_true, decide_eq_true_eq]
  rintro (h1 | ⟨h1, h1s⟩) (h2 | ⟨h2, h2s⟩)
  · exact Or.inl (lt_trans h1 h2)
  · exact Or.inl (h2 ▸ h1)
  · exact Or.inl (h1 ▸ h2)
  · exact Or.inr ⟨h1.trans h2, strLe_trans _ _ _ h1s h2s⟩

/-- Helper: membership in the duplicate-removal worker. -/
theorem dedupFirstAux_mem {α : Type} [DecidableEq α] :
    ∀ (l seen : List α) (x : α), x ∈ dedupFirstAux seen l ↔ x ∈ l ∧ x ∉ seen := by
  intro l
  induction l with
  | nil => intro seen x; simp [dedupFirstAux]
  | cons a as ih =>
      intro seen x
      by_cases ha : a ∈ seen
      · rw [dedupFirstAux, if_pos ha, ih]
        simp only [List.mem_cons]
        constructor
        · rintro ⟨h1, h2⟩
          exact ⟨Or.inr h1, h2⟩
        · rintro ⟨h1 | h1, h2⟩
          · exact absurd (h1 ▸ ha) h2
          · exact ⟨h1, h2⟩
      · rw [dedupFirstAux, if_neg ha]
        simp only [List.mem_cons, ih]
        constructor
        · rintro (rfl | ⟨h1, h2⟩)
          · exact ⟨Or.inl rfl, ha⟩
          · exact ⟨Or.inr h1, fun hx => h2 (Or.inr hx)⟩
        · rintro ⟨rfl | h1, h2⟩
          · exact Or.inl rfl
          · by_cases hxa : x = a
            · exact Or.inl hxa
            · exact Or.inr ⟨h1, by tauto⟩

/-- Helper: the duplicate-removal worker returns a duplicate-free list. -/
theorem dedupFirstAux_nodup {α : Type} [DecidableEq α] :
    ∀ (l seen : List α), (dedupFirstAux seen l).Nodup := by
  intro l
  induction l with
  | nil => intro seen; simp [dedupFirstAux]
  | cons a as ih =>
      intro seen
      by_cases ha : a ∈ seen
      · rw [dedupFirstAux, if_pos ha]
        exact ih seen
      · rw [dedupFirstAux, if_neg ha]
        refine List.nodup_cons.mpr ⟨?_, ih (a :: seen)⟩
        intro hmem
        exact ((dedupFirstAux_mem as (a :: seen) a).mp hmem).2 (List.mem_cons_self a seen)

/-- Helper: membership across sorted insertion. -/
theorem insertSorted_mem {α : Type} (le : α → α → Bool) (a x : α) :
    ∀ l, x ∈ insertSorted le a l ↔ x = a ∨ x ∈ l := by
  intro l
  induction l with
  | nil => simp [insertSorted]
  | cons b bs ih =>
      cases hle : le a b with
      | true => simp [insertSorted, hle, List.mem_cons]
      | false =>
          simp only [insertSorted, hle, Bool.false_eq_true, if_false, List.mem_cons, ih]
          tauto

/-- Helper: sorted insertion keeps a list duplicate-free when the element is
new. -/
theorem insertSorted_nodup {α : Type} (le : α → α → Bool) (a : α) :
    ∀ l, l.Nodup → a ∉ l → (insertSorted le a l).Nodup := by
  intro l
  induction l with
  | nil => intro _ _; simp [insertSorted]
  | cons b bs ih =>
      intro hnd hna
      obtain ⟨hb, hbs⟩ := List.nodup_cons.mp hnd
      cases hle : le a b with
      | true =>
          rw [insertSorted, if_pos hle]
          exact List.nodup_cons.mpr ⟨hna, hnd⟩
      | false =>
          rw [insertSorted, if_neg (by simp [hle])]
          refine List.nodup_cons.mpr ⟨?_, ih hbs fun hx => hna (List.mem_cons_of_mem _ hx)⟩
          rw [insertSorted_mem]
          rintro (rfl | hx)
          · exact hna (List.mem_cons_self b bs)
          · exact hb hx

/-- Helper: sorted insertion preserves sortedness for a total transitive
comparison. -/
theorem insertSorted_pairwise {α : Type} (le : α → α → Bool)
    (htot : ∀ u v, le u v = true ∨ le v u = true)
    (htrans : ∀ u v w, le u v = true → le v w = true → le u w = true) (a : α) :
    ∀ l, l.Pairwise (fun u v => le u v = true) →
      (insertSorted le a l).Pairwise (fun u v => le u v = true) := by
  intro l
  induction l with
  | nil => intro _; simp [insertSorted]
  | cons b bs ih =>
      intro hp
      obtain ⟨hb, hbs⟩ := List.pairwise_cons.mp hp
      cases hle : le a b with
      | true =>
          rw [insertSorted, if_pos hle]
          refine List.pairwise_cons.mpr ⟨?_, hp⟩
          intro x hx
          rcases List.mem_cons.mp hx with rfl | hx2
          · exact hle
          · exact htrans a b x hle (hb x hx2)
      | false =>
          rw [insertSorted, if_neg (by simp [hle])]
          refine List.pairwise_cons.mpr ⟨?_, ih hbs⟩
          intro x hx
          rcases (insertSorted_mem le a x bs).mp hx with rfl | hx2
          · rcases htot x b with h | h
            · rw [hle] at h
              exact absurd h (by simp)
            · exact h
          · exact hb x hx2

/-- Helper: membership across insertion sort. -/
theorem insertionSort_mem {α : Type} (le : α → α → Bool) (x : α) :
    ∀ l, x ∈ insertionSort le l ↔ x ∈ l := by
  intro l
  induction l with
  | nil => simp [insertionSort]
  | cons a as ih =>
      show x ∈ insertSorted le a (insertionSort le as) ↔ _
      rw [insertSorted_mem, ih]
      simp [List.mem_cons]

/-- Helper: insertion sort keeps a list duplicate-free. -/
theorem insertionSort_nodup {α : Type} (le : α → α → Bool) :
    ∀ l, l.Nodup → (insertionSort le l).Nodup := by
  intro l
  induction l with
  | nil => intro _; simp [insertionSort]
  | cons a as ih =>
      intro hnd
      obtain ⟨ha, has⟩ := List.nodup_cons.mp hnd
      show (insertSorted le a (insertionSort le as)).Nodup
      exact insertSorted_nodup le a _ (ih has) fun hx => ha ((insertionSort_mem le a as).mp hx)

/-- Helper: insertion sort sorts, for a total transitive comparison. -/
theorem insertionSort_pairwise {α : Type} (le : α → α → Bool)
    (htot : ∀ u v, le u v = true ∨ le v u = true)
    (htrans : ∀ u v w, le u v = true → le v w = true → le u w = true) :
    ∀ l, (insertionSort le l).Pairwise (fun u v => le u v = true) := by
  intro l
  induction l with
  | nil => simp [insertionSort]
  | cons a as ih =>
      show (insertSorted le a (insertionSort le as)).Pairwise _
      exact insertSorted_pairwise le htot htrans a _ ih

/-- Helper: entry of a zipWith as a function of the entries. -/
theorem zipWith_nth {α β γ : Type} (f : α → β → γ) :
    ∀ (l : List α) (m : List β) (k : ℕ),
      (List.zipWith f l m)[k]? = (l[k]?).bind fun a => (m[k]?).map fun b => f a b := by
  intro l
  induction l with
  | nil => intro m k; simp
  | cons a as ih =>
      intro m k
      cases m with
      | nil => simp
      | cons b bs =>
          cases k with
          | zero => simp
          | succ k2 => simpa using ih bs k2

/-- Helper: the with_type assignment loop preserves the row count. -/
theorem assignLoop_length (rows : List (ℤ × String)) :
    ∀ (ps : List (ℤ × String)) (i : ℕ) (ts : List ℤ), ts.length = rows.length →
      (assignLoop rows ps i ts).length = rows.length := by
  intro ps
  induction ps with
  | nil => intro i ts h; exact h
  | cons p ps2 ih =>
      intro i ts h
      rw [assignLoop]
      exact ih (i + 1) _ (by rw [List.length_zipWith, h, min_self])

/-- Helper: value of the with_type assignment loop at each row: the i-th
pair of the (duplicate-free) pair list gives its matching rows the value
i + 1, counting from the loop's starting index. -/
theorem assignLoop_nth (rows : List (ℤ × String)) :
    ∀ (ps : List (ℤ × String)) (i : ℕ) (ts : List ℤ), ps.Nodup →
      ts.length = rows.length → ∀ (k : ℕ) (hk : k < rows.length),
      (assignLoop rows ps i ts)[k]? =
        if rows[k] ∈ ps then some ((i : ℤ) + (rankIn rows[k] ps : ℕ) + 1)
        else ts[k]? := by
  intro ps
  induction ps with
  | nil =>
      intro i ts _ _ k _
      simp [assignLoop]
  | cons p ps2 ih =>
      intro i ts hnd hlen k hk
      obtain ⟨hpnot, hnd2⟩ := List.nodup_cons.mp hnd
      have hklt : k < ts.length := by omega
      have hlen2 : (List.zipWith (fun r t => if r = p then ((i : ℤ) + 1) else t) rows ts).length
          = rows.length := by
        rw [List.length_zipWith, hlen, min_self]
      have hts2 : (List.zipWith (fun r t => if r = p then ((i : ℤ) + 1) else t) rows ts)[k]?
          = some (if rows[k] = p then ((i : ℤ) + 1) else ts[k]) := by
        rw [zipWith_nth, List.getElem?_eq_getElem hk, List.getElem?_eq_getElem hklt]
        rfl
      rw [assignLoop, ih (i + 1) _ hnd2 hlen2 k hk]
      by_cases hp : rows[k] = p
      · have hnotin : rows[k] ∉ ps2 := hp ▸ hpnot
        rw [if_neg hnotin, if_pos (hp ▸ List.mem_cons_self p ps2), hts2, if_pos hp]
        have hr : rankIn rows[k] (p :: ps2) = 0 := by
          rw [rankIn, if_pos hp.symm]
        rw [hr]
        norm_num
      · have hr : rankIn rows[k] (p :: ps2) = rankIn rows[k] ps2 + 1 := by
          rw [rankIn, if_neg (fun h => hp h.symm)]
        have hmem : (rows[k] ∈ p :: ps2) ↔ rows[k] ∈ ps2 := by
          simp [List.mem_cons, hp]
        by_cases hin : rows[k] ∈ ps2
        · rw [if_pos hin, if_pos (hmem.mpr hin), hr]
          push_cast
          ring_nf
        · rw [if_neg hin, if_neg (fun h => hin (hmem.mp h)), hts2, if_neg hp,
            List.getElem?_eq_getElem hklt]

/-- Helper: the distinct sorted pairs contain exactly the pairs of the rows,
without duplicates, in ascending (elem, symbol) order. -/
theorem unique_pairs_spec (rows : List (ℤ × String)) :
    (unique_pairs rows).Nodup ∧
    (∀ p, p ∈ unique_pairs rows ↔ p ∈ rows) ∧
    (unique_pairs rows).Pairwise (fun u v => pairLe u v = true) := by
  refine ⟨?_, ?_, ?_⟩
  · exact insertionSort_nodup pairLe _ (dedupFirstAux_nodup rows [])
  · intro p
    rw [unique_pairs, insertionSort_mem, dedupFirst, dedupFirstAux_mem]
    simp
  · exact insertionSort_pairwise pairLe pairLe_total pairLe_trans _

/-- Helper: each row's auto-assigned type is one plus the rank of its
(elem, symbol) pair in the sorted distinct pair list. -/
theorem auto_assign_types_nth (rows : List (ℤ × String)) (k : ℕ) (hk : k < rows.length) :
    (auto_assign_types rows)[k]? =
      some (((rankIn rows[k] (unique_pairs rows) : ℕ) : ℤ) + 1) := by
  rw [auto_assign_types,
    assignLoop_nth rows (unique_pairs rows) 0 _ (unique_pairs_spec rows).1
      (by simp) k hk,
    if_pos (((unique_pairs_spec rows).2.1 _).mpr (List.getElem_mem hk))]
  norm_num

/-- Helper: every auto-assigned type id is strictly positive. -/
theorem auto_assign_types_pos (rows : List (ℤ × String)) :
    ∀ t ∈ auto_assign_types rows, 0 < t := by
  intro t ht
  obtain ⟨k, hk⟩ := List.mem_iff_getElem?.mp ht
  have hklen : k < (auto_assign_types rows).length := by
    by_contra hcon
    rw [List.getElem?_eq_none (by omega)] at hk
    cases hk
  have hkr : k < rows.length := by
    rw [auto_assign_types, assignLoop_length rows _ _ _ (by simp)] at hklen
    exact hklen
  rw [auto_assign_types_nth rows k hkr] at hk
  have : t = ((rankIn rows[k] (unique_pairs rows) : ℕ) : ℤ) + 1 := by
    exact (Option.some.injEq _ _ ▸ hk).symm
  omega

/-- C5: on a frame lacking a type column, with_type() auto-assigns: the
distinct (elem, symbol) pairs are sorted ascending, the pair of rank i gets
the sequential id i + 1, every row receives the id of its own pair, every
assigned id is strictly positive, and the documented example
Ag+, Na, H, Ag yields types 4, 2, 1, 3 (H to 1, Na to 2, Ag to 3, Ag+
to 4). -/
theorem with_type_auto_assignment (f : TypedFrame) (hf : f.type = none) :
    with_type f = { f with type := some (auto_assign_types f.rows) } ∧
    (unique_pairs f.rows).Pairwise (fun u v => pairLe u v = true) ∧
    (unique_pairs f.rows).Nodup ∧
    (∀ p, p ∈ unique_pairs f.rows ↔ p ∈ f.rows) ∧
    (∀ (k : ℕ) (hk : k < f.rows.length),
      (auto_assign_types f.rows)[k]? =
        some (((rankIn f.rows[k] (unique_pairs f.rows) : ℕ) : ℤ) + 1)) ∧
    (∀ t ∈ auto_assign_types f.rows, 0 < t) ∧
    auto_assign_types [((47 : ℤ), "Ag+"), (11, "Na"), (1, "H"), (47, "Ag")] = [4, 2, 1, 3] := by
  refine ⟨?_, (unique_pairs_spec f.rows).2.2, (unique_pairs_spec f.rows).1,
    (unique_pairs_spec f.rows).2.1, auto_assign_types_nth f.rows,
    auto_assign_types_pos f.rows, by decide⟩
  rw [with_type, hf]

/-- Witness for C5 on the documented four-atom example frame. -/
theorem with_type_auto_assignment_witness :
    (TypedFrame.mk [((47 : ℤ), "Ag+"), (11, "Na"), (1, "H"), (47, "Ag")] none).type = none ∧
    (with_type (TypedFrame.mk [((47 : ℤ), "Ag+"), (11, "Na"), (1, "H"), (47, "Ag")] none) =
      { TypedFrame.mk [((47 : ℤ), "Ag+"), (11, "Na"), (1, "H"), (47, "Ag")] none with
        type := some (auto_assign_types
          (TypedFrame.mk [((47 : ℤ), "Ag+"), (11, "Na"), (1, "H"), (47, "Ag")] none).rows) } ∧
      (unique_pairs [((47 : ℤ), "Ag+"), (11, "Na"), (1, "H"), (47, "Ag")]).Pairwise
        (fun u v => pairLe u v = true) ∧
      (unique_pairs [((47 : ℤ), "Ag+"), (11, "Na"), (1, "H"), (47, "Ag")]).Nodup ∧
      (∀ p, p ∈ unique_pairs [((47 : ℤ), "Ag+"), (11, "Na"), (1, "H"), (47, "Ag")] ↔
        p ∈ [((47 : ℤ), "Ag+"), (11, "Na"), (1, "H"), (47, "Ag")]) ∧
      (∀ (k : ℕ) (hk : k < ([((47 : ℤ), "Ag+"), (11, "Na"), (1, "H"), (47, "Ag")] :
          List (ℤ × String)).length),
        (auto_assign_types [((47 : ℤ), "Ag+"), (11, "Na"), (1, "H"), (47, "Ag")])[k]? =
          some (((rankIn ([((47 : ℤ), "Ag+"), (11, "Na"), (1, "H"), (47, "Ag")] :
            List (ℤ × String))[k]
            (unique_pairs [((47 : ℤ), "Ag+"), (11, "Na"), (1, "H"), (47, "Ag")]) : ℕ) : ℤ) + 1)) ∧
      (∀ t ∈ auto_assign_types [((47 : ℤ), "Ag+"), (11, "Na"), (1, "H"), (47, "Ag")], 0 < t) ∧
      auto_assign_types [((47 : ℤ), "Ag+"), (11, "Na"), (1, "H"), (47, "Ag")] = [4, 2, 1, 3]) :=
  ⟨rfl, with_type_auto_assignment
    (TypedFrame.mk [((47 : ℤ), "Ag+"), (11, "Na"), (1, "H"), (47, "Ag")] none) rfl⟩

/-- Helper: setting a smaller value at a position trades exactly that value
in the list sum. -/
theorem sum_set_plus : ∀ (l : List ℕ) (i a : ℕ), a ≤ l.getD i 0 →
    (l.set i a).sum + l.getD i 0 = l.sum + a := by
  intro l
  induction l with
  | nil =>
      intro i a h
      simp at h
      simp [h]
  | cons b bs ih =>
      intro i a h
      cases i with
      | zero =>
          simp only [List.getD_cons_zero] at h
          simp only [List.set_cons_zero, List.sum_cons, List.getD_cons_zero]
          omega
      | succ i2 =>
          simp only [List.getD_cons_succ] at h
          simp only [List.set_cons_succ, List.sum_cons, List.getD_cons_succ]
          have := ih i2 a h
          omega

/-- Helper: a pass that reports no change leaves the labels untouched, and
every close pair already has equal labels. -/
theorem dedupPass_fixed : ∀ (ps : List (ℕ × ℕ)) (idx r : List ℕ),
    dedupPass ps idx = (r, false) →
    r = idx ∧ ∀ p ∈ ps, idx.getD p.1 0 = idx.getD p.2 0 := by
  intro ps
  induction ps with
  | nil =>
      intro idx r h
      rw [dedupPass] at h
      injection h with h1 _
      exact ⟨h1.symm, by simp⟩
  | cons pr ps2 ih =>
      obtain ⟨i, j⟩ := pr
      intro idx r h
      rw [dedupPass] at h
      by_cases hij : idx.getD i 0 = idx.getD j 0
      · rw [if_pos hij] at h
        obtain ⟨h1, h2⟩ := ih idx r h
        refine ⟨h1, ?_⟩
        intro p hp
        rcases List.mem_cons.mp hp with rfl | hp2
        · exact hij
        · exact h2 p hp2
      · rw [if_neg hij] at h
        exfalso
        have := congrArg Prod.snd h
        simp at this

/-- Helper: a merge pass preserves the number of labels. -/
theorem dedupPass_length : ∀ (ps : List (ℕ × ℕ)) (idx : List ℕ),
    (dedupPass ps idx).1.length = idx.length := by
  intro ps
  induction ps with
  | nil => intro idx; rfl
  | cons pr ps2 ih =>
      obtain ⟨i, j⟩ := pr
      intro idx
      rw [dedupPass]
      by_cases hij : idx.getD i 0 = idx.getD j 0
      · rw [if_pos hij]
        exact ih idx
      · rw [if_neg hij]
        exact (ih _).trans (by simp)

/-- Helper: a pass that changes something strictly decreases the label sum,
for pairs of distinct in-range indices. -/
theorem dedupPass_sum_lt : ∀ (ps : List (ℕ × ℕ)) (idx r : List ℕ),
    (∀ p ∈ ps, p.1 ≠ p.2 ∧ p.1 < idx.length ∧ p.2 < idx.length) →
    dedupPass ps idx = (r, true) → r.sum < idx.sum := by
  intro ps
  induction ps with
  | nil =>
      intro idx r _ h
      rw [dedupPass] at h
      exact absurd (congrArg Prod.snd h) (by simp)
  | cons pr ps2 ih =>
      obtain ⟨i, j⟩ := pr
      intro idx r hwf h
      obtain ⟨hne, hi, hj⟩ := hwf (i, j) (List.mem_cons_self _ _)
      rw [dedupPass] at h
      by_cases hij : idx.getD i 0 = idx.getD j 0
      · rw [if_pos hij] at h
        exact ih idx r (fun p hp => hwf p (List.mem_cons_of_mem _ hp)) h
      · rw [if_neg hij] at h
        set m := min (idx.getD i 0) (idx.getD j 0) with hm
        set idx2 := (idx.set i m).set j m with hidx2
        have hgetj : (idx.set i m).getD j 0 = idx.getD j 0 := by
          rw [List.getD_eq_getElem?_getD, List.getD_eq_getElem?_getD,
            List.getElem?_set_ne hne]
        have s1 : (idx.set i m).sum + idx.getD i 0 = idx.sum + m :=
          sum_set_plus idx i m (min_le_left _ _)
        have s2 : idx2.sum + idx.getD j 0 = (idx.set i m).sum + m := by
          have h2 := sum_set_plus (idx.set i m) j m (by rw [hgetj]; exact min_le_right _ _)
          rw [hgetj] at h2
          exact h2
        have hchoice : m = idx.getD i 0 ∨ m = idx.getD j 0 := min_choice _ _
        have hle1 : m ≤ idx.getD i 0 := min_le_left _ _
        have hle2 : m ≤ idx.getD j 0 := min_le_right _ _
        have hsum2 : idx2.sum < idx.sum := by omega
        have hlen2 : idx2.length = idx.length := by simp [hidx2]
        rcases hps : dedupPass ps2 idx2 with ⟨r2, ch⟩
        have hr : r = r2 := by
          rw [hps] at h
          exact (congrArg Prod.fst h).symm
        cases ch with
        | false =>
            obtain ⟨heq, _⟩ := dedupPass_fixed ps2 idx2 r2 hps
            rw [hr, heq]
            exact hsum2
        | true =>
            have hlt := ih idx2 r2
              (fun p hp => by
                obtain ⟨a, b, cbound⟩ := hwf p (List.mem_cons_of_mem _ hp)
                exact ⟨a, by omega, by omega⟩) hps
            rw [hr]
            omega

/-- Helper: with fuel exceeding the initial label sum, the merge loop
reaches a fixed point of the pass. -/
theorem dedupLoop_fixed : ∀ (fuel : ℕ) (pairs : List (ℕ × ℕ)) (idx : List ℕ),
    (∀ p ∈ pairs, p.1 ≠ p.2 ∧ p.1 < idx.length ∧ p.2 < idx.length) →
    idx.sum < fuel →
    dedupPass pairs (dedupLoop fuel pairs idx) = (dedupLoop fuel pairs idx, false) := by
  intro fuel
  induction fuel with
  | zero =>
      intro pairs idx _ h
      exact absurd h (Nat.not_lt_zero _)
  | succ f ih =>
      intro pairs idx hwf hfuel
      rw [dedupLoop]
      rcases hps : dedupPass pairs idx with ⟨idx2, ch⟩
      cases ch with
      | false =>
          simp only [hps]
          obtain ⟨heq, _⟩ := dedupPass_fixed pairs idx idx2 hps
          rw [heq] at hps ⊢
          simpa using hps
      | true =>
          simp only [hps]
          have hlen : idx2.length = idx.length := by
            have := dedupPass_length pairs idx
            rw [hps] at this
            exact this
          have hsum : idx2.sum < idx.sum := dedupPass_sum_lt pairs idx idx2 hwf hps
          exact ih pairs idx2
            (fun p hp => by
              obtain ⟨a, b, cbound⟩ := hwf p hp
              exact ⟨a, by omega, by omega⟩)
            (by omega)

/-- Helper: membership in the close-pair list characterized: ordered index
pairs in range whose points lie within the tolerance. -/
theorem mem_close_pairs (coords : List Q3) (tol : ℚ) (i j : ℕ) :
    ((i, j) ∈ close_pairs coords tol) ↔
      (i < j ∧ j < coords.length ∧ withinTol coords tol i j = true) := by
  constructor
  · intro h
    simp only [close_pairs, List.mem_flatMap, List.mem_map, List.mem_filter,
      List.mem_range, Bool.and_eq_true, decide_eq_true_eq, Prod.mk.injEq] at h
    obtain ⟨a, _, b, ⟨hb, hab, hw⟩, heqa, heqb⟩ := h
    subst heqa
    subst heqb
    exact ⟨hab, hb, hw⟩
  · rintro ⟨h1, h2, h3⟩
    simp only [close_pairs, List.mem_flatMap, List.mem_map, List.mem_filter,
      List.mem_range, Bool.and_eq_true, decide_eq_true_eq, Prod.mk.injEq]
    exact ⟨i, by omega, j, ⟨h2, h1, h3⟩, rfl, rfl⟩

/-- Helper: close pairs are ordered pairs of distinct in-range row
indices. -/
theorem close_pairs_wf (coords : List Q3) (tol : ℚ) :
    ∀ p ∈ close_pairs coords tol,
      p.1 ≠ p.2 ∧ p.1 < coords.length ∧ p.2 < coords.length := by
  intro p hp
  obtain ⟨i, j⟩ := p
  obtain ⟨h1, h2, _⟩ := (mem_close_pairs coords tol i j).mp hp
  exact ⟨by omega, by omega, h2⟩

/-- Helper: in the final labels, every close pair carries equal labels. -/
theorem dedup_labels_respects (coords : List Q3) (tol : ℚ) :
    ∀ p ∈ close_pairs coords tol,
      (dedup_labels coords tol).getD p.1 0 = (dedup_labels coords tol).getD p.2 0 := by
  have hwf : ∀ p ∈ close_pairs coords tol,
      p.1 ≠ p.2 ∧ p.1 < (List.range coords.length).length ∧
        p.2 < (List.range coords.length).length := by
    intro p hp
    have := close_pairs_wf coords tol p hp
    simpa using this
  have hfix := dedupLoop_fixed ((List.range coords.length).sum + 1)
    (close_pairs coords tol) (List.range coords.length) hwf (by omega)
  exact (dedupPass_fixed _ _ _ hfix).2

/-- C2: the deduplicate group labels merge transitively: whenever two rows
are connected by a chain of pairs within Euclidean distance tolerance, they
carry the same final group label.  (Labels start as the row's own index;
each pass rewrites every close pair's labels to their minimum; passes repeat
to a fixed point, which dedupLoop_fixed shows the loop reaches.) -/
theorem dedup_labels_transitive (coords : List Q3) (tol : ℚ) (i j : ℕ)
    (h : Relation.ReflTransGen (closeStep coords tol) i j) :
    (dedup_labels coords tol).getD i 0 = (dedup_labels coords tol).getD j 0 := by
  induction h with
  | refl => rfl
  | tail hab hbc ih =>
      rcases hbc with hm | hm
      · exact ih.trans (dedup_labels_respects coords tol _ hm)
      · exact ih.trans (dedup_labels_respects coords tol _ hm).symm

/-- Witness for C2: three collinear atoms at x = 0, 1, 2 with tolerance 1:
the endpoints are beyond tolerance of each other yet all three labels agree
through the chain. -/
theorem dedup_labels_transitive_witness :
    Relation.ReflTransGen (closeStep dedupEx3 1) 0 2 ∧
    withinTol dedupEx3 1 0 2 = false ∧
    (dedup_labels dedupEx3 1).getD 0 0 = (dedup_labels dedupEx3 1).getD 2 0 := by
  have w01 : withinTol dedupEx3 1 0 1 = true := by
    rw [withinTol, decide_eq_true (show (0 : ℚ) ≤ 1 by norm_num),
      decide_eq_true (show sqDist (dedupEx3.getD 0 (0, 0, 0)) (dedupEx3.getD 1 (0, 0, 0)) ≤
        (1 : ℚ) ^ 2 by
        norm_num [sqDist, dedupEx3, List.getD_cons_zero, List.getD_cons_succ])]
    rfl
  have w12 : withinTol dedupEx3 1 1 2 = true := by
    rw [withinTol, decide_eq_true (show (0 : ℚ) ≤ 1 by norm_num),
      decide_eq_true (show sqDist (dedupEx3.getD 1 (0, 0, 0)) (dedupEx3.getD 2 (0, 0, 0)) ≤
        (1 : ℚ) ^ 2 by
        norm_num [sqDist, dedupEx3, List.getD_cons_zero, List.getD_cons_succ])]
    rfl
  have h01 : (0, 1) ∈ close_pairs dedupEx3 1 :=
    (mem_close_pairs dedupEx3 1 0 1).mpr ⟨by omega, by decide, w01⟩
  have h12 : (1, 2) ∈ close_pairs dedupEx3 1 :=
    (mem_close_pairs dedupEx3 1 1 2).mpr ⟨by omega, by decide, w12⟩
  have hconn : Relation.ReflTransGen (closeStep dedupEx3 1) 0 2 :=
    Relation.ReflTransGen.tail (Relation.ReflTransGen.single (Or.inl h01)) (Or.inl h12)
  refine ⟨hconn, ?_, dedup_labels_transitive dedupEx3 1 0 2 hconn⟩
  rw [withinTol,
    decide_eq_false (show ¬ sqDist (dedupEx3.getD 0 (0, 0, 0)) (dedupEx3.getD 2 (0, 0, 0)) ≤
      (1 : ℚ) ^ 2 by
      norm_num [sqDist, dedupEx3, List.getD_cons_zero, List.getD_cons_succ])]
  simp

/-- Helper: keep-first unique selection returns a subsequence of its
input. -/
theorem uniqueKeepFirstAux_sublist {κ β : Type} [DecidableEq κ] :
    ∀ (l : List (κ × β)) (seen : List κ),
      List.Sublist (uniqueKeepFirstAux seen l) l := by
  intro l
  induction l with
  | nil => intro seen; simp [uniqueKeepFirstAux]
  | cons kb rest ih =>
      obtain ⟨k, b⟩ := kb
      intro seen
      rw [uniqueKeepFirstAux]
      by_cases hk : k ∈ seen
      · rw [if_pos hk]
        exact List.Sublist.cons _ (ih seen)
      · rw [if_neg hk]
        exact List.Sublist.cons₂ _ (ih (k :: seen))

/-- Helper: keep-first unique selection has pairwise-distinct keys, none of
them previously seen. -/
theorem uniqueKeepFirstAux_keys {κ β : Type} [DecidableEq κ] :
    ∀ (l : List (κ × β)) (seen : List κ),
      ((uniqueKeepFirstAux seen l).map Prod.fst).Nodup ∧
      ∀ k ∈ (uniqueKeepFirstAux seen l).map Prod.fst, k ∉ seen := by
  intro l
  induction l with
  | nil => intro seen; simp [uniqueKeepFirstAux]
  | cons kb rest ih =>
      obtain ⟨k, b⟩ := kb
      intro seen
      rw [uniqueKeepFirstAux]
      by_cases hk : k ∈ seen
      · rw [if_pos hk]
        exact ih seen
      · rw [if_neg hk]
        obtain ⟨ihn, ihs⟩ := ih (k :: seen)
        refine ⟨?_, ?_⟩
        · simp only [List.map_cons]
          refine List.nodup_cons.mpr ⟨?_, ihn⟩
          intro hmem
          exact ihs k hmem (List.mem_cons_self k seen)
        · simp only [List.map_cons, List.mem_cons]
          rintro kk (rfl | hkk)
          · exact hk
          · exact fun hs => ihs kk hkk (List.mem_cons_of_mem _ hs)

/-- Helper: every unseen key of the input survives into the keep-first
selection. -/
theorem uniqueKeepFirstAux_covers {κ β : Type} [DecidableEq κ] :
    ∀ (l : List (κ × β)) (seen : List κ) (kb : κ × β), kb ∈ l → kb.1 ∉ seen →
      ∃ e ∈ uniqueKeepFirstAux seen l, e.1 = kb.1 := by
  intro l
  induction l with
  | nil => intro seen kb h _; cases h
  | cons hd rest ih =>
      obtain ⟨k, b⟩ := hd
      intro seen kb hmem hseen
      rw [uniqueKeepFirstAux]
      by_cases hk : k ∈ seen
      · rw [if_pos hk]
        rcases List.mem_cons.mp hmem with rfl | h2
        · exact absurd hk hseen
        · exact ih seen kb h2 hseen
      · rw [if_neg hk]
        rcases List.mem_cons.mp hmem with rfl | h2
        · exact ⟨(k, b), List.mem_cons_self _ _, rfl⟩
        · by_cases hkb : kb.1 = k
          · exact ⟨(k, b), List.mem_cons_self _ _, hkb.symm⟩
          · obtain ⟨e, he, heq⟩ := ih (k :: seen) kb h2 (by
              simp only [List.mem_cons]
              rintro (h | h)
              · exact hkb h
              · exact hseen h)
            exact ⟨e, List.mem_cons_of_mem _ he, heq⟩

/-- Helper: every element of the keep-first selection is the first element
of the input with its key. -/
theorem uniqueKeepFirstAux_first {κ β : Type} [DecidableEq κ] :
    ∀ (l : List (κ × β)) (seen : List κ) (e : κ × β), e ∈ uniqueKeepFirstAux seen l →
      e.1 ∉ seen ∧ l.find? (fun x => decide (x.1 = e.1)) = some e := by
  intro l
  induction l with
  | nil => intro seen e h; cases h
  | cons hd rest ih =>
      obtain ⟨k, b⟩ := hd
      intro seen e hmem
      rw [uniqueKeepFirstAux] at hmem
      by_cases hk : k ∈ seen
      · rw [if_pos hk] at hmem
        obtain ⟨hns, hfind⟩ := ih seen e hmem
        refine ⟨hns, ?_⟩
        rw [List.find?_cons_of_neg, hfind]
        simp only [decide_eq_true_eq]
        intro hke
        exact hns (hke ▸ hk)
      · rw [if_neg hk] at hmem
        rcases List.mem_cons.mp hmem with rfl | h2
        · refine ⟨hk, ?_⟩
          rw [List.find?_cons_of_pos]
          simp
        · obtain ⟨hns, hfind⟩ := ih (k :: seen) e h2
          have hne : e.1 ≠ k := fun h => hns (h ▸ List.mem_cons_self k seen)
          refine ⟨fun hs => hns (List.mem_cons_of_mem _ hs), ?_⟩
          rw [List.find?_cons_of_neg, hfind]
          simp only [decide_eq_true_eq]
          exact fun h => hne h.symm

/-- C7: deduplicate keeps exactly one row per dedup key (the fixed-point
group label together with the remaining attribute column): the key-tagged
result is an order-preserving subsequence of the key-tagged input with
pairwise-distinct keys covering every input key, each kept row is the first
input row bearing its key, and the result drops the key tags again.  On the
four-atom example with one close pair, the pair collapses to its first
occurrence, leaving three atoms in original order. -/
theorem deduplicate_keep_first (tol : ℚ) (rows : List DedupRow) :
    List.Sublist (dedup_keyed tol rows) (keyedRows tol rows) ∧
    ((dedup_keyed tol rows).map Prod.fst).Nodup ∧
    (∀ kr ∈ keyedRows tol rows, ∃ e ∈ dedup_keyed tol rows, e.1 = kr.1) ∧
    (∀ e ∈ dedup_keyed tol rows,
      (keyedRows tol rows).find? (fun x => decide (x.1 = e.1)) = some e) ∧
    deduplicate tol rows = (dedup_keyed tol rows).map Prod.snd ∧
    deduplicate 1 dedupEx4 = [((0, 0, 0), "C"), ((10, 0, 0), "C"), ((20, 0, 0), "C")] := by
  refine ⟨uniqueKeepFirstAux_sublist _ _, (uniqueKeepFirstAux_keys _ _).1,
    fun kr hkr => uniqueKeepFirstAux_covers _ [] kr hkr (by simp),
    fun e he => (uniqueKeepFirstAux_first _ [] e he).2, rfl, ?_⟩
  have w01 : withinTol dedupEx4C 1 0 1 = true := by
    rw [withinTol, decide_eq_true (show (0 : ℚ) ≤ 1 by norm_num),
      decide_eq_true (show sqDist (dedupEx4C.getD 0 (0, 0, 0)) (dedupEx4C.getD 1 (0, 0, 0)) ≤
        (1 : ℚ) ^ 2 by
        norm_num [sqDist, dedupEx4C, List.getD_cons_zero, List.getD_cons_succ])]
    rfl
  have w02 : withinTol dedupEx4C 1 0 2 = false := by
    rw [withinTol,
      decide_eq_false (show ¬ sqDist (dedupEx4C.getD 0 (0, 0, 0)) (dedupEx4C.getD 2 (0, 0, 0)) ≤
        (1 : ℚ) ^ 2 by
        norm_num [sqDist, dedupEx4C, List.getD_cons_zero, List.getD_cons_succ])]
    simp
  have w03 : withinTol dedupEx4C 1 0 3 = false := by
    rw [withinTol,
      decide_eq_false (show ¬ sqDist (dedupEx4C.getD 0 (0, 0, 0)) (dedupEx4C.getD 3 (0, 0, 0)) ≤
        (1 : ℚ) ^ 2 by
        norm_num [sqDist, dedupEx4C, List.getD_cons_zero, List.getD_cons_succ])]
    simp
  have w12 : withinTol dedupEx4C 1 1 2 = false := by
    rw [withinTol,
      decide_eq_false (show ¬ sqDist (dedupEx4C.getD 1 (0, 0, 0)) (dedupEx4C.getD 2 (0, 0, 0)) ≤
        (1 : ℚ) ^ 2 by
        norm_num [sqDist, dedupEx4C, List.getD_cons_zero, List.getD_cons_succ])]
    simp
  have w13 : withinTol dedupEx4C 1 1 3 = false := by
    rw [withinTol,
      decide_eq_false (show ¬ sqDist (dedupEx4C.getD 1 (0, 0, 0)) (dedupEx4C.getD 3 (0, 0, 0)) ≤
        (1 : ℚ) ^ 2 by
        norm_num [sqDist, dedupEx4C, List.getD_cons_zero, List.getD_cons_succ])]
    simp
  have w23 : withinTol dedupEx4C 1 2 3 = false := by
    rw [withinTol,
      decide_eq_false (show ¬ sqDist (dedupEx4C.getD 2 (0, 0, 0)) (dedupEx4C.getD 3 (0, 0, 0)) ≤
        (1 : ℚ) ^ 2 by
        norm_num [sqDist, dedupEx4C, List.getD_cons_zero, List.getD_cons_succ])]
    simp
  have hlen4 : dedupEx4C.length = 4 := rfl
  have hcp : close_pairs dedupEx4C 1 = [(0, 1)] := by
    rw [close_pairs, hlen4]
    simp [List.range_succ, w01, w02, w03, w12, w13, w23]
  have hmap : dedupEx4.map Prod.fst = dedupEx4C := rfl
  have hlab : dedup_labels dedupEx4C 1 = [0, 0, 2, 3] := by
    rw [dedup_labels, hcp]
    decide
  rw [deduplicate, dedup_keyed, keyedRows, hmap, hlab]
  decide

/-- C4 counterexample: the boundary angle 0 lies outside the open interval
(0, pi), so the claim demands a validation failure; the code accepts it
(the checks are non-strict), and the full cell_to_ortho even succeeds on
angles (0, pi/2, pi/2) with unit lengths. -/
theorem cell_angle_boundary_accepted :
    validate_cell_angle (some ⟨0, π / 2, π / 2⟩) = some ⟨0, π / 2, π / 2⟩ ∧
    (cell_to_ortho ⟨0, π / 2, π / 2⟩ (some ⟨1, 1, 1⟩)).isSome = true := by
  have hpi := Real.pi_pos
  have hcond : ¬((0 : ℝ) < 0 ∨ (π / 2 : ℝ) < 0 ∨ (π / 2 : ℝ) < 0 ∨ (0 : ℝ) > π ∨
      (π / 2 : ℝ) > π ∨ (π / 2 : ℝ) > π ∨ (0 : ℝ) + π / 2 + π / 2 > 2 * π) := by
    push_neg
    refine ⟨le_refl 0, by linarith, by linarith, by linarith, by linarith, by linarith,
      by linarith⟩
  have hval : validate_cell_angle (some ⟨0, π / 2, π / 2⟩) = some ⟨0, π / 2, π / 2⟩ := by
    rw [validate_cell_angle, if_neg hcond]
  refine ⟨hval, ?_⟩
  have hsize : validate_cell_size ⟨1, 1, 1⟩ = some ⟨1, 1, 1⟩ := by
    rw [validate_cell_size, if_neg]
    rintro (h | h | h) <;>
      · rw [isclose, sub_zero, abs_zero, mul_zero, add_zero] at h
        rw [abs_one] at h
        rw [npAtol] at h
        norm_num at h
  rw [cell_to_ortho, hsize, hval]
  have hnotall : ¬(isclose (0 : ℝ) (π / 2) ∧ isclose (π / 2 : ℝ) (π / 2) ∧
      isclose (π / 2 : ℝ) (π / 2)) := by
    rintro ⟨h, _, _⟩
    rw [isclose, zero_sub, abs_neg, npAtol, npRtol,
      abs_of_pos (show (0 : ℝ) < π / 2 by linarith)] at h
    have hpi3 : 3.141592 < π := Real.pi_gt_d6
    linarith
  show (cell_to_ortho_body ⟨0, π / 2, π / 2⟩ 1 1 1).isSome = true
  rw [cell_to_ortho_body]
  dsimp only []
  rw [if_neg hnotall]
  have hguard : ¬(Real.sin (π / 2 : ℝ) * Real.sin (π / 2 : ℝ) = 0 ∨
      |Real.cos (π / 2 : ℝ) * Real.cos (π / 2 : ℝ) - Real.cos (0 : ℝ)| >
        |Real.sin (π / 2 : ℝ) * Real.sin (π / 2 : ℝ)|) := by
    rw [Real.sin_pi_div_two, Real.cos_pi_div_two, Real.cos_zero]
    push_neg
    norm_num
  rw [if_neg hguard]
  rfl

/-- C4 amended: the validators fail exactly on these conditions: the angle
validator iff some angle is negative, some angle exceeds pi, or the angle
sum exceeds 2 pi (all comparisons non-strict at the boundary, so angles 0
and pi and an angle sum of exactly 2 pi are accepted); the size validator
iff some length is within numpy absolute tolerance (1e-8) of zero (so tiny
nonzero lengths are also rejected); and either validation failure makes
cell_to_ortho fail. -/
theorem cell_validation_iff (av s : Vec3) :
    (validate_cell_angle (some av) = none ↔
      (av.x < 0 ∨ av.y < 0 ∨ av.z < 0 ∨ av.x > π ∨ av.y > π ∨ av.z > π ∨
        av.x + av.y + av.z > 2 * π)) ∧
    (validate_cell_size s = none ↔ (|s.x| ≤ npAtol ∨ |s.y| ≤ npAtol ∨ |s.z| ≤ npAtol)) ∧
    (validate_cell_angle (some av) = none → cell_to_ortho av (some s) = none) ∧
    (validate_cell_size s = none → cell_to_ortho av (some s) = none) := by
  have hiso : ∀ x : ℝ, isclose x 0 ↔ |x| ≤ npAtol := by
    intro x
    rw [isclose, sub_zero, abs_zero, mul_zero, add_zero]
  refine ⟨?_, ?_, ?_, ?_⟩
  · rw [validate_cell_angle]
    by_cases h : (av.x < 0 ∨ av.y < 0 ∨ av.z < 0 ∨ av.x > π ∨ av.y > π ∨ av.z > π ∨
        av.x + av.y + av.z > 2 * π)
    · rw [if_pos h]
      simp [h]
    · rw [if_neg h]
      simp [h]
  · rw [validate_cell_size]
    by_cases h : (isclose s.x 0 ∨ isclose s.y 0 ∨ isclose s.z 0)
    · rw [if_pos h]
      simp only [hiso] at h
      simp [h]
    · rw [if_neg h]
      simp only [hiso] at h
      simp [h]
  · intro h
    rcases h2 : validate_cell_size s with _ | s2 <;> simp [cell_to_ortho, h2, h]
  · intro h
    simp [cell_to_ortho, h]

/-- Helper: the numpy absolute tolerance is positive. -/
theorem npAtol_pos : (0 : ℝ) < npAtol := by
  rw [npAtol]
  norm_num

/-- Helper: a value above the absolute tolerance is not numpy-close to
zero. -/
theorem not_isclose_zero (x : ℝ) (hx : npAtol < x) : ¬ isclose x 0 := by
  intro hc
  rw [isclose, sub_zero, abs_zero, mul_zero, add_zero] at hc
  rw [abs_of_pos (lt_trans npAtol_pos hx)] at hc
  linarith

/-- Helper: sizes above the absolute tolerance pass validation. -/
theorem validate_cell_size_pos (s : Vec3) (hx : npAtol < s.x) (hy : npAtol < s.y)
    (hz : npAtol < s.z) : validate_cell_size s = some s := by
  rw [validate_cell_size, if_neg]
  rintro (h | h | h)
  exacts [not_isclose_zero _ hx h, not_isclose_zero _ hy h, not_isclose_zero _ hz h]

/-- Helper: angles in the closed box with sum at most 2 pi pass
validation. -/
theorem validate_cell_angle_ok (av : Vec3) (h1 : 0 ≤ av.x) (h2 : 0 ≤ av.y) (h3 : 0 ≤ av.z)
    (h4 : av.x ≤ π) (h5 : av.y ≤ π) (h6 : av.z ≤ π) (h7 : av.x + av.y + av.z ≤ 2 * π) :
    validate_cell_angle (some av) = some av := by
  rw [validate_cell_angle, if_neg]
  push_neg
  exact ⟨h1, h2, h3, h4, h5, h6, h7⟩

/-- C1 amended: for positive lengths above the numpy tolerance, angles in
the validated ranges that do not all sit within numpy tolerance of pi/2,
and geometrically consistent angles (the derived alphastar cosine lies
strictly inside [-1, 1]): ortho_to_cell inverts cell_to_ortho exactly over
the reals, recovering the angles and lengths. -/
theorem cell_roundtrip (α β γ a b c : ℝ)
    (hα0 : 0 ≤ α) (hαπ : α ≤ π)
    (hβ0 : 0 < β) (hβπ : β < π)
    (hγ0 : 0 < γ) (hγπ : γ < π)
    (hsum : α + β + γ ≤ 2 * π)
    (ha : npAtol < a) (hb : npAtol < b) (hc : npAtol < c)
    (hcons : |Real.cos β * Real.cos γ - Real.cos α| < Real.sin β * Real.sin γ)
    (hnot : ¬(isclose α (π / 2) ∧ isclose β (π / 2) ∧ isclose γ (π / 2))) :
    (cell_to_ortho ⟨α, β, γ⟩ (some ⟨a, b, c⟩)).bind ortho_to_cell =
      some (⟨α, β, γ⟩, ⟨a, b, c⟩) := by
  have hsβ : 0 < Real.sin β := Real.sin_pos_of_pos_of_lt_pi hβ0 hβπ
  have hsγ : 0 < Real.sin γ := Real.sin_pos_of_pos_of_lt_pi hγ0 hγπ
  have hden : 0 < Real.sin β * Real.sin γ := mul_pos hsβ hsγ
  have hapos : (0 : ℝ) < a := lt_trans npAtol_pos ha
  have hbpos : (0 : ℝ) < b := lt_trans npAtol_pos hb
  have hcpos : (0 : ℝ) < c := lt_trans npAtol_pos hc
  have hx1 : (-1 : ℝ) ≤ (Real.cos β * Real.cos γ - Real.cos α) / (Real.sin β * Real.sin γ) := by
    rw [le_div_iff₀ hden]
    have := (abs_lt.mp hcons).1
    linarith
  have hx2 : (Real.cos β * Real.cos γ - Real.cos α) / (Real.sin β * Real.sin γ) ≤ 1 := by
    rw [div_le_iff₀ hden]
    have := (abs_lt.mp hcons).2
    linarith
  have hguard : ¬(Real.sin β * Real.sin γ = 0 ∨
      |Real.cos β * Real.cos γ - Real.cos α| > |Real.sin β * Real.sin γ|) := by
    push_neg
    refine ⟨ne_of_gt hden, ?_⟩
    rw [abs_of_pos hden]
    exact le_of_lt hcons
  rw [cell_to_ortho, validate_cell_size_pos _ ha hb hc,
    validate_cell_angle_ok _ hα0 (le_of_lt hβ0) (le_of_lt hγ0) hαπ (le_of_lt hβπ)
      (le_of_lt hγπ) hsum]
  show (cell_to_ortho_body ⟨α, β, γ⟩ a b c).bind ortho_to_cell = _
  rw [cell_to_ortho_body]
  dsimp only []
  rw [if_neg hnot, if_neg hguard]
  rw [Option.some_bind]
  set x := (Real.cos β * Real.cos γ - Real.cos α) / (Real.sin β * Real.sin γ) with hxdef
  have hn0 : colNorm0 ⟨a, b * Real.cos γ, c * Real.cos β,
      0, b * Real.sin γ, -(c * Real.sin β * Real.cos (Real.arccos x)),
      0, 0, c * Real.sin β * Real.sin (Real.arccos x)⟩ = a := by
    rw [colNorm0]
    dsimp only []
    rw [show a ^ 2 + 0 ^ 2 + 0 ^ 2 = a ^ 2 by ring, Real.sqrt_sq hapos.le]
  have hn1 : colNorm1 ⟨a, b * Real.cos γ, c * Real.cos β,
      0, b * Real.sin γ, -(c * Real.sin β * Real.cos (Real.arccos x)),
      0, 0, c * Real.sin β * Real.sin (Real.arccos x)⟩ = b := by
    rw [colNorm1]
    dsimp only []
    rw [show (b * Real.cos γ) ^ 2 + (b * Real.sin γ) ^ 2 + 0 ^ 2 = b ^ 2 by
      linear_combination b ^ 2 * Real.sin_sq_add_cos_sq γ, Real.sqrt_sq hbpos.le]
  have hsc : Real.sin (Real.arccos x) ^ 2 + Real.cos (Real.arccos x) ^ 2 = 1 :=
    Real.sin_sq_add_cos_sq (Real.arccos x)
  have hn2 : colNorm2 ⟨a, b * Real.cos γ, c * Real.cos β,
      0, b * Real.sin γ, -(c * Real.sin β * Real.cos (Real.arccos x)),
      0, 0, c * Real.sin β * Real.sin (Real.arccos x)⟩ = c := by
    rw [colNorm2]
    dsimp only []
    rw [show (c * Real.cos β) ^ 2 + (-(c * Real.sin β * Real.cos (Real.arccos x))) ^ 2 +
        (c * Real.sin β * Real.sin (Real.arccos x)) ^ 2 = c ^ 2 by
      linear_combination (c ^ 2 * Real.sin β ^ 2) * hsc +
        c ^ 2 * Real.sin_sq_add_cos_sq β, Real.sqrt_sq hcpos.le]
  rw [ortho_to_cell, hn0, hn1, hn2, validate_cell_size_pos ⟨a, b, c⟩ ha hb hc]
  dsimp only []
  have hcosarc : Real.cos (Real.arccos x) = x := Real.cos_arccos hx1 hx2
  have hca : (b * Real.cos γ) / b * ((c * Real.cos β) / c) +
      (b * Real.sin γ) / b * (-(c * Real.sin β * Real.cos (Real.arccos x)) / c) +
      0 / b * ((c * Real.sin β * Real.sin (Real.arccos x)) / c) = Real.cos α := by
    rw [hcosarc, hxdef]
    field_simp
    ring
  have hcb : (c * Real.cos β) / c * (a / a) +
      (-(c * Real.sin β * Real.cos (Real.arccos x)) / c) * (0 / a) +
      ((c * Real.sin β * Real.sin (Real.arccos x)) / c) * (0 / a) = Real.cos β := by
    field_simp
  have hcg : a / a * ((b * Real.cos γ) / b) + 0 / a * ((b * Real.sin γ) / b) +
      0 / a * (0 / b) = Real.cos γ := by
    field_simp
  rw [hca, hcb, hcg, Real.arccos_cos hα0 hαπ, Real.arccos_cos hβ0.le hβπ.le,
    Real.arccos_cos hγ0.le hγπ.le,
    validate_cell_angle_ok ⟨α, β, γ⟩ hα0 (le_of_lt hβ0) (le_of_lt hγ0) hαπ
      (le_of_lt hβπ) (le_of_lt hγπ) hsum]


/-- C1 counterexample: the angles (5 pi/6, pi/6, pi/6) with unit lengths
satisfy every validity condition of the claim - each angle in (0, pi), sum
below 2 pi, nonzero lengths - yet cell_to_ortho fails its alphastar
assertion (the arccos argument exceeds 1, a NaN in numpy), so the
round-trip produces nothing instead of reproducing the inputs. -/
theorem cell_roundtrip_cex :
    ((0 : ℝ) < 5 * π / 6 ∧ 5 * π / 6 < π ∧ (0 : ℝ) < π / 6 ∧ π / 6 < π ∧
      5 * π / 6 + π / 6 + π / 6 < 2 * π ∧ (1 : ℝ) ≠ 0) ∧
    (cell_to_ortho ⟨5 * π / 6, π / 6, π / 6⟩ (some ⟨1, 1, 1⟩)).bind ortho_to_cell = none := by
  have hpi := Real.pi_pos
  refine ⟨⟨by linarith, by linarith, by linarith, by linarith, by linarith, by norm_num⟩, ?_⟩
  have h1 : npAtol < (1 : ℝ) := by rw [npAtol]; norm_num
  rw [cell_to_ortho, validate_cell_size_pos ⟨1, 1, 1⟩ h1 h1 h1,
    validate_cell_angle_ok ⟨5 * π / 6, π / 6, π / 6⟩ (by linarith) (by linarith) (by linarith)
      (by linarith) (by linarith) (by linarith) (by linarith)]
  show (cell_to_ortho_body ⟨5 * π / 6, π / 6, π / 6⟩ 1 1 1).bind ortho_to_cell = none
  rw [cell_to_ortho_body]
  dsimp only []
  have hnot : ¬(isclose (5 * π / 6) (π / 2) ∧ isclose (π / 6) (π / 2) ∧
      isclose (π / 6) (π / 2)) := by
    rintro ⟨h, _, _⟩
    rw [isclose, npAtol, npRtol, show (5 * π / 6 - π / 2 : ℝ) = π / 3 by ring,
      abs_of_pos (by linarith : (0 : ℝ) < π / 3),
      abs_of_pos (by linarith : (0 : ℝ) < π / 2)] at h
    have hpi3 : 3.141592 < π := Real.pi_gt_d6
    linarith
  rw [if_neg hnot]
  have hsqrt3 : Real.sqrt 3 * Real.sqrt 3 = 3 := Real.mul_self_sqrt (by norm_num)
  have hsqrt3pos : 0 < Real.sqrt 3 := Real.sqrt_pos.mpr (by norm_num)
  have hcos56 : Real.cos (5 * π / 6) = -(Real.sqrt 3 / 2) := by
    rw [show (5 * π / 6 : ℝ) = π - π / 6 by ring, Real.cos_pi_sub, Real.cos_pi_div_six]
  have hguard : (Real.sin (π / 6) * Real.sin (π / 6) = 0 ∨
      |Real.cos (π / 6) * Real.cos (π / 6) - Real.cos (5 * π / 6)| >
        |Real.sin (π / 6) * Real.sin (π / 6)|) := by
    right
    rw [hcos56, Real.cos_pi_div_six, Real.sin_pi_div_six]
    rw [abs_of_pos (by nlinarith), abs_of_pos (by norm_num)]
    nlinarith
  rw [if_pos hguard]
  rfl

/-- Witness for the amended C1 at the documented instance: angles
(80, 85, 95) degrees as radian multiples of pi and lengths (3, 4, 5); the
round-trip reproduces them exactly, hence within 1e-6. -/
theorem cell_roundtrip_witness :
    ((0 : ℝ) ≤ 4 * π / 9 ∧ 4 * π / 9 ≤ π ∧ (0 : ℝ) < 17 * π / 36 ∧ 17 * π / 36 < π ∧
      (0 : ℝ) < 19 * π / 36 ∧ 19 * π / 36 < π ∧
      4 * π / 9 + 17 * π / 36 + 19 * π / 36 ≤ 2 * π ∧
      npAtol < (3 : ℝ) ∧ npAtol < (4 : ℝ) ∧ npAtol < (5 : ℝ) ∧
      |Real.cos (17 * π / 36) * Real.cos (19 * π / 36) - Real.cos (4 * π / 9)| <
        Real.sin (17 * π / 36) * Real.sin (19 * π / 36) ∧
      ¬(isclose (4 * π / 9) (π / 2) ∧ isclose (17 * π / 36) (π / 2) ∧
        isclose (19 * π / 36) (π / 2))) ∧
    (cell_to_ortho ⟨4 * π / 9, 17 * π / 36, 19 * π / 36⟩ (some ⟨3, 4, 5⟩)).bind ortho_to_cell =
      some (⟨4 * π / 9, 17 * π / 36, 19 * π / 36⟩, ⟨3, 4, 5⟩) := by
  have hpi := Real.pi_pos
  have hsqrt3 : Real.sqrt 3 * Real.sqrt 3 = 3 := Real.mul_self_sqrt (by norm_num)
  have hsqrt3pos : 0 < Real.sqrt 3 := Real.sqrt_pos.mpr (by norm_num)
  have hc17nn : 0 ≤ Real.cos (17 * π / 36) :=
    Real.cos_nonneg_of_neg_pi_div_two_le_of_le (by linarith) (by linarith)
  have hc17le : Real.cos (17 * π / 36) ≤ 1 / 2 := by
    have := Real.cos_le_cos_of_nonneg_of_le_pi (show (0 : ℝ) ≤ π / 3 by linarith)
      (show (17 * π / 36 : ℝ) ≤ π by linarith) (show (π / 3 : ℝ) ≤ 17 * π / 36 by linarith)
    rw [Real.cos_pi_div_three] at this
    exact this
  have hc16nn : 0 ≤ Real.cos (4 * π / 9) :=
    Real.cos_nonneg_of_neg_pi_div_two_le_of_le (by linarith) (by linarith)
  have hc16lt : Real.cos (4 * π / 9) < 1 / 2 := by
    have := Real.cos_lt_cos_of_nonneg_of_le_pi (show (0 : ℝ) ≤ π / 3 by linarith)
      (show (4 * π / 9 : ℝ) ≤ π by linarith) (show (π / 3 : ℝ) < 4 * π / 9 by linarith)
    rw [Real.cos_pi_div_three] at this
    exact this
  have hcos19 : Real.cos (19 * π / 36) = -Real.cos (17 * π / 36) := by
    rw [show (19 * π / 36 : ℝ) = π - 17 * π / 36 by ring, Real.cos_pi_sub]
  have hsin19 : Real.sin (19 * π / 36) = Real.sin (17 * π / 36) := by
    rw [show (19 * π / 36 : ℝ) = π - 17 * π / 36 by ring, Real.sin_pi_sub]
  have hsin17 : Real.sin (17 * π / 36) = Real.cos (π / 36) := by
    rw [show (17 * π / 36 : ℝ) = π / 2 - π / 36 by ring, Real.sin_pi_div_two_sub]
  have hcos36 : Real.sqrt 3 / 2 ≤ Real.cos (π / 36) := by
    have := Real.cos_le_cos_of_nonneg_of_le_pi (show (0 : ℝ) ≤ π / 36 by linarith)
      (show (π / 6 : ℝ) ≤ π by linarith) (show (π / 36 : ℝ) ≤ π / 6 by linarith)
    rw [Real.cos_pi_div_six] at this
    exact this
  have hcons : |Real.cos (17 * π / 36) * Real.cos (19 * π / 36) - Real.cos (4 * π / 9)| <
      Real.sin (17 * π / 36) * Real.sin (19 * π / 36) := by
    rw [hcos19, hsin19, hsin17]
    have hnum : Real.cos (17 * π / 36) * -Real.cos (17 * π / 36) - Real.cos (4 * π / 9) ≤ 0 := by
      nlinarith
    rw [abs_of_nonpos hnum]
    nlinarith
  have hnot : ¬(isclose (4 * π / 9) (π / 2) ∧ isclose (17 * π / 36) (π / 2) ∧
      isclose (19 * π / 36) (π / 2)) := by
    rintro ⟨h, _, _⟩
    rw [isclose, npAtol, npRtol, show (4 * π / 9 - π / 2 : ℝ) = -(π / 18) by ring, abs_neg,
      abs_of_pos (by linarith : (0 : ℝ) < π / 18),
      abs_of_pos (by linarith : (0 : ℝ) < π / 2)] at h
    have hpi3 : 3.141592 < π := Real.pi_gt_d6
    linarith
  have h3 : npAtol < (3 : ℝ) := by rw [npAtol]; norm_num
  have h4 : npAtol < (4 : ℝ) := by rw [npAtol]; norm_num
  have h5 : npAtol < (5 : ℝ) := by rw [npAtol]; norm_num
  exact ⟨⟨by linarith, by linarith, by linarith, by linarith, by linarith, by linarith,
      by linarith, h3, h4, h5, hcons, hnot⟩,
    cell_roundtrip (4 * π / 9) (17 * π / 36) (19 * π / 36) 3 4 5
      (by linarith) (by linarith) (by linarith) (by linarith) (by linarith) (by linarith)
      (by linarith) h3 h4 h5 hcons hnot⟩

end Structlib
